import Mathlib

/-!
# Verification of the Go board engine and minimax agents

Shallow embedding of the repository's `board.py` (class `GoBoard`) and
`agents.py` (class `MinimaxAgent`) together with proofs about the embedded
operations.

Modelling conventions:

* A board point is a pair of integers (`Pos`), since the source uses Python
  integer coordinates, including the off-board pass sentinel `(-1, -1)`.
* The numpy array `self.board` maps each on-board cell to a value in
  `{EMPTY = 0, BLACK = 1, WHITE = 2}`.  We represent it by the (finite) sets
  of black and of white points; `gfun` recovers the cell-value function.
  All other `GoBoard` fields are embedded directly; the dictionary
  `captured_stones` with keys `BLACK`, `WHITE` becomes the two fields
  `captured_black`, `captured_white`.
* Worklist (BFS) loops of the source (`get_group`, the flood fills of
  `_has_liberties_in_copy` and `count_territory`) are embedded as bounded
  iteration of their one-step frontier expansion (`stepc`), iterated
  `size * size` times, which is enough to reach the fixpoint the worklist
  loop computes.
* The float comparisons of `is_game_over` (`> 0.60`, `* 1.5`,
  `>= size*size/3`) are embedded by the equivalent exact integer
  comparisons; for the integer magnitudes a Go board can produce (at most
  `361`) the double-precision comparisons of the source agree with the
  exact rational ones.
* Python floats used as minimax scores are modelled by rationals extended
  with the two infinities (`float('-inf')`, `float('inf')`), i.e. by
  `WithBot (WithTop ℚ)`.
-/

namespace Go

/-- A board coordinate, as a pair of (possibly negative) integers. -/
abbrev Pos : Type := ℤ × ℤ

/-- `EMPTY = 0` in the source. -/
def EMPTY : ℕ := 0

/-- `BLACK = 1` in the source. -/
def BLACK : ℕ := 1

/-- `WHITE = 2` in the source. -/
def WHITE : ℕ := 2

/-- `is_on_board`: `0 <= x < self.size and 0 <= y < self.size`. -/
def is_on_board (n : ℕ) (x y : ℤ) : Prop := 0 ≤ x ∧ x < n ∧ 0 ≤ y ∧ y < n

instance (n : ℕ) (x y : ℤ) : Decidable (is_on_board n x y) := by
  unfold is_on_board; infer_instance

/-- The finite set of on-board points of an `n × n` board. -/
def cells (n : ℕ) : Finset Pos :=
  (Finset.range n ×ˢ Finset.range n).image (fun p => ((p.1 : ℤ), (p.2 : ℤ)))

theorem mem_cells {n : ℕ} {p : Pos} : p ∈ cells n ↔ is_on_board n p.1 p.2 := by
  constructor
  · intro h
    simp only [cells, Finset.mem_image, Finset.mem_product, Finset.mem_range] at h
    obtain ⟨⟨a, b⟩, ⟨ha, hb⟩, rfl⟩ := h
    refine ⟨Int.ofNat_nonneg a, ?_, Int.ofNat_nonneg b, ?_⟩ <;> simp <;> omega
  · rintro ⟨h1, h2, h3, h4⟩
    simp only [cells, Finset.mem_image, Finset.mem_product, Finset.mem_range]
    refine ⟨(p.1.toNat, p.2.toNat), ⟨?_, ?_⟩, ?_⟩
    · omega
    · omega
    · simp only [Prod.ext_iff]
      constructor <;> simp <;> omega

theorem card_cells (n : ℕ) : (cells n).card = n * n := by
  rw [cells, Finset.card_image_of_injective, Finset.card_product, Finset.card_range]
  intro a b hab
  simp only [Prod.ext_iff] at hab ⊢
  exact ⟨by exact_mod_cast hab.1, by exact_mod_cast hab.2⟩

/-- `get_adjacent_points`: the on-board points among
`[(x, y+1), (x+1, y), (x, y-1), (x-1, y)]` (the source offset order). -/
def get_adjacent_points (n : ℕ) (x y : ℤ) : List Pos :=
  ([(x, y + 1), (x + 1, y), (x, y - 1), (x - 1, y)]).filter
    (fun p => decide (is_on_board n p.1 p.2))

theorem mem_get_adjacent_points {n : ℕ} {x y : ℤ} {q : Pos} :
    q ∈ get_adjacent_points n x y ↔
      is_on_board n q.1 q.2 ∧
        ((q.1 = x ∧ q.2 = y + 1) ∨ (q.1 = x + 1 ∧ q.2 = y) ∨
          (q.1 = x ∧ q.2 = y - 1) ∨ (q.1 = x - 1 ∧ q.2 = y)) := by
  simp only [get_adjacent_points, List.mem_filter, List.mem_cons, List.not_mem_nil,
    or_false, decide_eq_true_eq, Prod.ext_iff]
  tauto

theorem adjacent_mem_cells {n : ℕ} {x y : ℤ} {q : Pos}
    (h : q ∈ get_adjacent_points n x y) : q ∈ cells n := by
  rw [mem_cells]
  exact (mem_get_adjacent_points.1 h).1

/-- Adjacency is symmetric between on-board points. -/
theorem adjacent_symm {n : ℕ} {p q : Pos} (hp : p ∈ cells n)
    (h : q ∈ get_adjacent_points n p.1 p.2) : p ∈ get_adjacent_points n q.1 q.2 := by
  rw [mem_get_adjacent_points] at h ⊢
  obtain ⟨_, hoff⟩ := h
  refine ⟨mem_cells.1 hp, ?_⟩
  rcases hoff with ⟨h1, h2⟩ | ⟨h1, h2⟩ | ⟨h1, h2⟩ | ⟨h1, h2⟩
  · right; right; left; omega
  · right; right; right; omega
  · left; omega
  · right; left; omega

end Go

namespace Go

/-!
## Frontier expansion and connected components

The source's BFS loops (`get_group`, `_has_liberties_in_copy`,
`count_territory`) all compute, from a seed point, the closure of the seed
under "add the adjacent points satisfying a predicate".  We embed that loop
as `size * size` iterations of the one-step expansion `stepc`, which is
enough for the iteration to reach the fixpoint the worklist loop computes.
-/

/-- One step of frontier expansion: add every on-board point that satisfies
`pred` and is adjacent to the current set. -/
def stepc (n : ℕ) (pred : Pos → Bool) (S : Finset Pos) : Finset Pos :=
  S ∪ (cells n).filter
    (fun q => pred q = true ∧ ∃ s ∈ S, q ∈ get_adjacent_points n s.1 s.2)

/-- The connected component of the seed `p` under `pred`. -/
def comp (n : ℕ) (pred : Pos → Bool) (p : Pos) : Finset Pos :=
  (stepc n pred)^[n * n] {p}

theorem subset_stepc (n : ℕ) (pred : Pos → Bool) (S : Finset Pos) :
    S ⊆ stepc n pred S :=
  Finset.subset_union_left

theorem stepc_subset (n : ℕ) (pred : Pos → Bool) (S : Finset Pos) :
    stepc n pred S ⊆ S ∪ cells n :=
  Finset.union_subset_union (le_refl S) (Finset.filter_subset _ _)

theorem mem_stepc {n : ℕ} {pred : Pos → Bool} {S : Finset Pos} {q : Pos} :
    q ∈ stepc n pred S ↔
      q ∈ S ∨ (q ∈ cells n ∧ pred q = true ∧
        ∃ s ∈ S, q ∈ get_adjacent_points n s.1 s.2) := by
  simp only [stepc, Finset.mem_union, Finset.mem_filter]

/-- An extensive, bounded-range set map reaches a fixpoint after `C.card`
iterations. -/
theorem iterate_fixed {f : Finset Pos → Finset Pos}
    (hext : ∀ T, T ⊆ f T) {C : Finset Pos} (hbd : ∀ T, f T ⊆ T ∪ C)
    (S : Finset Pos) : f (f^[C.card] S) = f^[C.card] S := by
  have hsub : ∀ k, f^[k] S ⊆ S ∪ C := by
    intro k
    induction k with
    | zero => exact Finset.subset_union_left
    | succ k ih =>
      rw [Function.iterate_succ_apply']
      intro q hq
      rcases Finset.mem_union.1 (hbd _ hq) with h | h
      · exact ih h
      · exact Finset.mem_union_right _ h
  have aux : ∀ k, f (f^[k] S) = f^[k] S ∨ S.card + k ≤ (f^[k] S).card := by
    intro k
    induction k with
    | zero => right; simp
    | succ k ih =>
      rcases ih with hfix | hcard
      · left
        rw [Function.iterate_succ_apply', hfix, hfix]
      · by_cases h : f (f^[k] S) = f^[k] S
        · left
          rw [Function.iterate_succ_apply', h, h]
        · right
          rw [Function.iterate_succ_apply']
          have hlt : (f^[k] S).card < (f (f^[k] S)).card :=
            Finset.card_lt_card (lt_of_le_of_ne (hext _) (Ne.symm h))
          omega
  rcases aux C.card with hfix | hcard
  · exact hfix
  · have h1 : (f^[C.card] S).card ≤ S.card + C.card :=
      le_trans (Finset.card_le_card (hsub _)) (Finset.card_union_le _ _)
    have h2 : (f (f^[C.card] S)).card ≤ S.card + C.card := by
      refine le_trans (Finset.card_le_card ?_) (Finset.card_union_le S C)
      intro q hq
      rcases Finset.mem_union.1 (hbd _ hq) with h | h
      · exact hsub _ h
      · exact Finset.mem_union_right _ h
    exact (Finset.eq_of_subset_of_card_le (hext _) (by omega)).symm

theorem stepc_comp (n : ℕ) (pred : Pos → Bool) (p : Pos) :
    stepc n pred (comp n pred p) = comp n pred p := by
  have hbd : ∀ T, stepc n pred T ⊆ T ∪ cells n := stepc_subset n pred
  have := iterate_fixed (subset_stepc n pred) hbd ({p} : Finset Pos)
  rw [card_cells] at this
  exact this

theorem mem_comp_self (n : ℕ) (pred : Pos → Bool) (p : Pos) :
    p ∈ comp n pred p := by
  have aux : ∀ k, p ∈ (stepc n pred)^[k] {p} := by
    intro k
    induction k with
    | zero => simp
    | succ k ih =>
      rw [Function.iterate_succ_apply']
      exact subset_stepc _ _ _ ih
  exact aux (n * n)

/-- Members of a component are closed under adding adjacent on-board points
satisfying the predicate. -/
theorem comp_closed {n : ℕ} {pred : Pos → Bool} {p q r : Pos}
    (hq : q ∈ comp n pred p) (hr : r ∈ cells n) (hpr : pred r = true)
    (hadj : r ∈ get_adjacent_points n q.1 q.2) : r ∈ comp n pred p := by
  rw [← stepc_comp n pred p]
  exact mem_stepc.2 (Or.inr ⟨hr, hpr, q, hq, hadj⟩)

/-- Minimality: the component is contained in any closed superset of the
seed. -/
theorem comp_min {n : ℕ} {pred : Pos → Bool} {p : Pos} {T : Finset Pos}
    (hp : p ∈ T)
    (hcl : ∀ q ∈ T, ∀ r, r ∈ cells n → pred r = true →
      r ∈ get_adjacent_points n q.1 q.2 → r ∈ T) :
    comp n pred p ⊆ T := by
  have aux : ∀ k, (stepc n pred)^[k] {p} ⊆ T := by
    intro k
    induction k with
    | zero => simpa using hp
    | succ k ih =>
      rw [Function.iterate_succ_apply']
      intro q hq
      rcases mem_stepc.1 hq with h | ⟨hc, hpq, s, hs, hadj⟩
      · exact ih h
      · exact hcl s (ih hs) q hc hpq hadj
  exact aux (n * n)

/-- Reachability from the seed through on-board points satisfying `pred`. -/
def Reach (n : ℕ) (pred : Pos → Bool) : Pos → Pos → Prop :=
  Relation.ReflTransGen
    (fun a b => b ∈ cells n ∧ pred b = true ∧ b ∈ get_adjacent_points n a.1 a.2)

theorem comp_reach {n : ℕ} {pred : Pos → Bool} {p q : Pos}
    (hq : q ∈ comp n pred p) : Reach n pred p q := by
  have aux : ∀ k, ∀ r, r ∈ (stepc n pred)^[k] {p} → Reach n pred p r := by
    intro k
    induction k with
    | zero =>
      intro r hr
      simp only [Function.iterate_zero, id, Finset.mem_singleton] at hr
      exact hr ▸ Relation.ReflTransGen.refl
    | succ k ih =>
      intro r hr
      rw [Function.iterate_succ_apply'] at hr
      rcases mem_stepc.1 hr with h | ⟨hc, hpq, s, hs, hadj⟩
      · exact ih r h
      · exact Relation.ReflTransGen.tail (ih s hs) ⟨hc, hpq, hadj⟩
  exact aux (n * n) q hq

theorem reach_mem_comp {n : ℕ} {pred : Pos → Bool} {p q : Pos}
    (h : Reach n pred p q) : q ∈ comp n pred p := by
  induction h with
  | refl => exact mem_comp_self n pred p
  | tail _ hstep ih => exact comp_closed ih hstep.1 hstep.2.1 hstep.2.2

theorem reach_prop {n : ℕ} {pred : Pos → Bool} {p q : Pos}
    (h : Reach n pred p q) : q = p ∨ (q ∈ cells n ∧ pred q = true) := by
  induction h with
  | refl => exact Or.inl rfl
  | tail _ hstep _ => exact Or.inr ⟨hstep.1, hstep.2.1⟩

theorem reach_symm {n : ℕ} {pred : Pos → Bool} {p q : Pos}
    (hp : p ∈ cells n) (hpp : pred p = true) (h : Reach n pred p q) :
    Reach n pred q p := by
  induction h with
  | refl => exact Relation.ReflTransGen.refl
  | @tail b c hpb hstep ih =>
    have hb : b ∈ cells n ∧ pred b = true := by
      rcases reach_prop hpb with h | h
      · exact h ▸ ⟨hp, hpp⟩
      · exact h
    exact Relation.ReflTransGen.head ⟨hb.1, hb.2, adjacent_symm hb.1 hstep.2.2⟩ ih

/-- Two components with the same predicate that meet are equal. -/
theorem comp_eq_of_mem {n : ℕ} {pred : Pos → Bool} {p q : Pos}
    (hp : p ∈ cells n) (hpp : pred p = true) (hq : q ∈ comp n pred p) :
    comp n pred q = comp n pred p := by
  apply Finset.Subset.antisymm
  · exact comp_min hq (fun a ha r h1 h2 h3 => comp_closed ha h1 h2 h3)
  · have hqp : Reach n pred q p := reach_symm hp hpp (comp_reach hq)
    exact comp_min (reach_mem_comp hqp) (fun a ha r h1 h2 h3 => comp_closed ha h1 h2 h3)

theorem comp_subset_insert (n : ℕ) (pred : Pos → Bool) (p : Pos) :
    comp n pred p ⊆ insert p (cells n) := by
  intro q hq
  rcases reach_prop (comp_reach hq) with h | h
  · subst h; exact Finset.mem_insert_self _ _
  · exact Finset.mem_insert_of_mem h.1

theorem comp_mem_pred {n : ℕ} {pred : Pos → Bool} {p q : Pos}
    (hq : q ∈ comp n pred p) : q = p ∨ (q ∈ cells n ∧ pred q = true) :=
  reach_prop (comp_reach hq)

/-- Locality: the component only depends on the predicate at on-board points
adjacent to the component. -/
theorem comp_congr {n : ℕ} {pred1 pred2 : Pos → Bool} {p : Pos}
    (hagree : ∀ q ∈ cells n,
      (∃ s ∈ comp n pred1 p, q ∈ get_adjacent_points n s.1 s.2) →
        pred1 q = pred2 q) : comp n pred2 p = comp n pred1 p := by
  have h21 : comp n pred2 p ⊆ comp n pred1 p := by
    refine comp_min (mem_comp_self n pred1 p) ?_
    intro q hq r h1 h2 h3
    have heq : pred1 r = pred2 r := hagree r h1 ⟨q, hq, h3⟩
    exact comp_closed hq h1 (heq ▸ h2) h3
  have h12 : comp n pred1 p ⊆ comp n pred2 p := by
    refine comp_min (mem_comp_self n pred2 p) ?_
    intro q hq r h1 h2 h3
    have heq : pred1 r = pred2 r := hagree r h1 ⟨q, h21 hq, h3⟩
    exact comp_closed hq h1 (heq ▸ h2) h3
  exact Finset.Subset.antisymm h21 h12

/-!
## The board state and its operations (`board.py`, class `GoBoard`)
-/

/-- The mutable state of `GoBoard`.  The numpy grid `self.board` is
represented by the sets of black and of white points; `self.captured_stones`
(a dict with keys `BLACK`, `WHITE`) by the two `captured_*` fields. -/
structure GoBoard where
  size : ℕ
  blacks : Finset Pos
  whites : Finset Pos
  current_player : ℕ
  ko_point : Option Pos
  move_history : List Pos
  captured_black : ℕ
  captured_white : ℕ
  pass_count : ℕ
deriving DecidableEq

/-- The cell-value function of the grid: `EMPTY`, `BLACK` or `WHITE`. -/
def gfun (b : GoBoard) : Pos → ℕ := fun p =>
  if p ∈ b.blacks then BLACK else if p ∈ b.whites then WHITE else EMPTY

/-- Well-formed states: the states reachable through the `GoBoard` API.
The current player is a real color, stones are on the board, and no point
holds two stones. -/
def Wf (b : GoBoard) : Prop :=
  (b.current_player = BLACK ∨ b.current_player = WHITE) ∧
    b.blacks ⊆ cells b.size ∧ b.whites ⊆ cells b.size ∧ b.blacks ∩ b.whites = ∅

instance (b : GoBoard) : Decidable (Wf b) := by
  unfold Wf; infer_instance

/-- `self.__init__(size)` (the constructor also rejects sizes outside
`{9, 13, 19}` by raising; `init_board` embeds the state it builds). -/
def init_board (n : ℕ) : GoBoard :=
  ⟨n, ∅, ∅, BLACK, none, [], 0, 0, 0⟩

/-- A single numpy cell write `board[p] = v` on the set representation. -/
def set_cell (b : GoBoard) (p : Pos) (v : ℕ) : GoBoard :=
  if v = BLACK then
    { b with blacks := insert p b.blacks, whites := b.whites.erase p }
  else if v = WHITE then
    { b with whites := insert p b.whites, blacks := b.blacks.erase p }
  else { b with blacks := b.blacks.erase p, whites := b.whites.erase p }

/-- Emptying a whole set of cells at once (the writes of `remove_group`). -/
def remove_cells (b : GoBoard) (G : Finset Pos) : GoBoard :=
  { b with blacks := b.blacks \ G, whites := b.whites \ G }

/-- `get_group`: the connected same-colored group at `(x, y)`, or `∅` for an
off-board or empty point. -/
def get_group (b : GoBoard) (x y : ℤ) : Finset Pos :=
  if ¬ is_on_board b.size x y ∨ gfun b (x, y) = EMPTY then ∅
  else comp b.size (fun q => decide (gfun b q = gfun b (x, y))) (x, y)

/-- `get_liberties`: the empty points adjacent to the group at `(x, y)`. -/
def get_liberties (b : GoBoard) (x y : ℤ) : Finset Pos :=
  if ¬ is_on_board b.size x y ∨ gfun b (x, y) = EMPTY then ∅
  else (cells b.size).filter (fun q => gfun b q = EMPTY ∧
    ∃ s ∈ get_group b x y, q ∈ get_adjacent_points b.size s.1 s.2)

/-- `count_liberties`. -/
def count_liberties (b : GoBoard) (x y : ℤ) : ℕ := (get_liberties b x y).card

/-- `remove_group`: empty every cell of the group at `(x, y)` and return the
number of stones removed. -/
def remove_group (b : GoBoard) (x y : ℤ) : GoBoard × ℕ :=
  (remove_cells b (get_group b x y), (get_group b x y).card)

/-- `_has_liberties_in_copy`: the flood fill from `(x, y)` finds an empty
point iff some stone of the same-colored component has an empty neighbor. -/
def has_liberties_in_copy (b : GoBoard) (x y : ℤ) : Bool :=
  if gfun b (x, y) = EMPTY then false
  else decide (∃ s ∈ comp b.size (fun q => decide (gfun b q = gfun b (x, y))) (x, y),
    ∃ r ∈ get_adjacent_points b.size s.1 s.2, gfun b r = EMPTY)

/-- `would_be_suicide`: simulate the placement on a scratch copy of the
grid; not suicide if the placed group has a liberty or some directly
adjacent opponent group is left without liberties. -/
def would_be_suicide (b : GoBoard) (x y : ℤ) (color : ℕ) : Bool :=
  let bc := set_cell b (x, y) color
  if has_liberties_in_copy bc x y then false
  else
    let opponent := if color = BLACK then WHITE else BLACK
    if (get_adjacent_points b.size x y).any
        (fun q => decide (gfun bc q = opponent) && ! has_liberties_in_copy bc q.1 q.2) then
      false
    else true

/-- `is_ko`: `self.ko_point == (x, y)`. -/
def is_ko (b : GoBoard) (x y : ℤ) : Bool := decide (b.ko_point = some (x, y))

/-- `is_valid_move`. -/
def is_valid_move (b : GoBoard) (x y : ℤ) : Bool :=
  if ¬ is_on_board b.size x y then false
  else if gfun b (x, y) ≠ EMPTY then false
  else if is_ko b x y then false
  else if would_be_suicide b x y b.current_player then false
  else true

/-- The row-major traversal `for x in range(size): for y in range(size)`. -/
def cells_list (n : ℕ) : List Pos :=
  (List.range n).flatMap
    (fun x => (List.range n).map (fun y => (Int.ofNat x, Int.ofNat y)))

/-- `get_valid_moves`. -/
def get_valid_moves (b : GoBoard) : List Pos :=
  (cells_list b.size).filter (fun p => is_valid_move b p.1 p.2)

/-- `if color == BLACK then WHITE else BLACK` (the opponent computation the
source repeats). -/
def opponent_of (c : ℕ) : ℕ := if c = BLACK then WHITE else BLACK

/-- `self.captured_stones[c] += k` (the dict has exactly the keys `BLACK`
and `WHITE`; any other key would raise and is unreachable from well-formed
states). -/
def add_captured (b : GoBoard) (c : ℕ) (k : ℕ) : GoBoard :=
  if c = BLACK then { b with captured_black := b.captured_black + k }
  else if c = WHITE then { b with captured_white := b.captured_white + k }
  else b

/-- The capture loop of `play_move` over the adjacent points of the placed
stone, threading the board, the count of stones captured this move, and the
ko candidate.  When a captured group is a singleton it is `{q}` (the seed),
so `next(iter(group))` is `q` itself. -/
def capture_loop (cur opp : ℕ) :
    List Pos → GoBoard → ℕ → Option Pos → GoBoard × ℕ × Option Pos
  | [], bcur, cap, pko => (bcur, cap, pko)
  | q :: rest, bcur, cap, pko =>
    if gfun bcur q = opp ∧ count_liberties bcur q.1 q.2 = 0 then
      capture_loop cur opp rest
        (add_captured (remove_cells bcur (get_group bcur q.1 q.2)) cur
          (get_group bcur q.1 q.2).card)
        (cap + (get_group bcur q.1 q.2).card)
        (if (get_group bcur q.1 q.2).card = 1 then some q else pko)
    else capture_loop cur opp rest bcur cap pko

/-- `play_move`: pass handling, validity check, placement, captures, ko
detection, and the player switch.  Returns the success flag and the next
state. -/
def play_move (b : GoBoard) (x y : ℤ) : Bool × GoBoard :=
  if x = -1 ∧ y = -1 then
    (true, { b with pass_count := b.pass_count + 1,
                    move_history := b.move_history ++ [((-1 : ℤ), (-1 : ℤ))],
                    current_player := opponent_of b.current_player,
                    ko_point := none })
  else
    let b0 := { b with pass_count := 0 }
    if is_valid_move b0 x y = false then (false, b0)
    else
      let cur := b0.current_player
      let b1 := { set_cell b0 (x, y) cur with
                    move_history := b0.move_history ++ [(x, y)] }
      let res := capture_loop cur (opponent_of cur)
        (get_adjacent_points b0.size x y) b1 0 none
      let b2 := res.1
      let b3 := { b2 with ko_point :=
        if res.2.1 = 1 ∧ res.2.2.isSome then
          (if count_liberties b2 x y = 1 then res.2.2 else none)
        else none }
      (true, { b3 with current_player := opponent_of cur })

/-- `count_stones`, split into its two components. -/
def count_stones_black (b : GoBoard) : ℕ :=
  ((cells b.size).filter (fun q => gfun b q = BLACK)).card

/-- The white half of `count_stones`. -/
def count_stones_white (b : GoBoard) : ℕ :=
  ((cells b.size).filter (fun q => gfun b q = WHITE)).card

/-- The predicate of the empty flood fill of `count_territory`. -/
def empty_pred (b : GoBoard) : Pos → Bool := fun q => decide (gfun b q = EMPTY)

/-- The maximal connected empty region through `p`. -/
def empty_region (b : GoBoard) (p : Pos) : Finset Pos :=
  comp b.size (empty_pred b) p

/-- The colors of the stones bordering a region (`border_colors`). -/
def region_border (b : GoBoard) (R : Finset Pos) : Finset ℕ :=
  ((cells b.size).filter (fun q => gfun b q ≠ EMPTY ∧
    ∃ s ∈ R, q ∈ get_adjacent_points b.size s.1 s.2)).image (gfun b)

/-- One outer-loop step of `count_territory`: state is
`(visited, territory[BLACK], territory[WHITE])`.  The grid only holds the
values `0`, `1`, `2`, so a singleton border set is `{BLACK}` or `{WHITE}`. -/
def territory_step (b : GoBoard) (st : Finset Pos × ℕ × ℕ) (p : Pos) :
    Finset Pos × ℕ × ℕ :=
  if gfun b p = EMPTY ∧ p ∉ st.1 then
    let R := empty_region b p
    let border := region_border b R
    if border = {BLACK} then (st.1 ∪ R, st.2.1 + R.card, st.2.2)
    else if border = {WHITE} then (st.1 ∪ R, st.2.1, st.2.2 + R.card)
    else (st.1 ∪ R, st.2.1, st.2.2)
  else st

/-- `count_territory`, as `(territory[BLACK], territory[WHITE])`. -/
def count_territory (b : GoBoard) : ℕ × ℕ :=
  ((cells_list b.size).foldl (territory_step b) (∅, 0, 0)).2

/-- `is_game_over`.  The float comparisons of the source are embedded by
the equivalent exact integer comparisons: `total >= size*size/3` becomes
`3 * total ≥ size²`, `count/total > 0.60` becomes `5 * count > 3 * total`,
and `t1 > t2 * 1.5` becomes `2 * t1 > 3 * t2`; for the magnitudes a Go
board can produce these agree with the double-precision comparisons. -/
def is_game_over (b : GoBoard) : Bool :=
  if 2 ≤ b.pass_count then true
  else
    let black_count := count_stones_black b
    let white_count := count_stones_white b
    let total := black_count + white_count
    if b.size * b.size ≤ 3 * total ∧
        (0 < black_count ∧ 0 < white_count) ∧
        (3 * total < 5 * black_count ∨ 3 * total < 5 * white_count) ∧
        ((3 * total < 5 * black_count ∧
            3 * (count_territory b).2 < 2 * (count_territory b).1) ∨
          (3 * total < 5 * white_count ∧
            3 * (count_territory b).1 < 2 * (count_territory b).2)) then
      true
    else if b.size * b.size / 2 < b.move_history.length then true
    else false

/-!
## Basic facts about the grid representation
-/

theorem gfun_eq_of_parts {b1 b2 : GoBoard} (hb : b1.blacks = b2.blacks)
    (hw : b1.whites = b2.whites) : gfun b1 = gfun b2 := by
  funext p
  simp [gfun, hb, hw]

theorem gfun_range (b : GoBoard) (p : Pos) :
    gfun b p = EMPTY ∨ gfun b p = BLACK ∨ gfun b p = WHITE := by
  unfold gfun
  split_ifs <;> simp

theorem gfun_off_board {b : GoBoard} (hwf : Wf b) {p : Pos}
    (hp : p ∉ cells b.size) : gfun b p = EMPTY := by
  unfold gfun
  rw [if_neg (fun h => hp (hwf.2.1 h)), if_neg (fun h => hp (hwf.2.2.1 h))]

theorem gfun_remove_cells (b : GoBoard) (G : Finset Pos) (q : Pos) :
    gfun (remove_cells b G) q = if q ∈ G then EMPTY else gfun b q := by
  by_cases hq : q ∈ G <;> simp [gfun, remove_cells, hq]

theorem gfun_set_cell (b : GoBoard) (p : Pos) (v : ℕ)
    (hv : v = EMPTY ∨ v = BLACK ∨ v = WHITE) (q : Pos) :
    gfun (set_cell b p v) q = if q = p then v else gfun b q := by
  rcases hv with rfl | rfl | rfl <;> by_cases hqp : q = p <;>
    simp [set_cell, gfun, hqp, EMPTY, BLACK, WHITE]

theorem remove_cells_size (b : GoBoard) (G : Finset Pos) :
    (remove_cells b G).size = b.size := rfl

theorem set_cell_size (b : GoBoard) (p : Pos) (v : ℕ) :
    (set_cell b p v).size = b.size := by
  unfold set_cell
  split_ifs <;> rfl

theorem add_captured_grid (b : GoBoard) (c k : ℕ) :
    (add_captured b c k).blacks = b.blacks ∧ (add_captured b c k).whites = b.whites ∧
      (add_captured b c k).size = b.size := by
  unfold add_captured
  split_ifs <;> exact ⟨rfl, rfl, rfl⟩

theorem add_captured_fields (b : GoBoard) (c k : ℕ) :
    (add_captured b c k).current_player = b.current_player ∧
      (add_captured b c k).ko_point = b.ko_point ∧
      (add_captured b c k).move_history = b.move_history ∧
      (add_captured b c k).pass_count = b.pass_count := by
  unfold add_captured
  split_ifs <;> exact ⟨rfl, rfl, rfl, rfl⟩

theorem add_captured_black (b : GoBoard) (k : ℕ) :
    (add_captured b BLACK k).captured_black = b.captured_black + k ∧
      (add_captured b BLACK k).captured_white = b.captured_white := by
  unfold add_captured
  simp [BLACK]

theorem add_captured_white (b : GoBoard) (k : ℕ) :
    (add_captured b WHITE k).captured_white = b.captured_white + k ∧
      (add_captured b WHITE k).captured_black = b.captured_black := by
  unfold add_captured
  simp [BLACK, WHITE]

/-!
## Groups and liberties
-/

theorem get_group_congr {b1 b2 : GoBoard} (hs : b1.size = b2.size)
    (hg : gfun b1 = gfun b2) (x y : ℤ) : get_group b1 x y = get_group b2 x y := by
  unfold get_group
  rw [hs, hg]

theorem get_liberties_congr {b1 b2 : GoBoard} (hs : b1.size = b2.size)
    (hg : gfun b1 = gfun b2) (x y : ℤ) :
    get_liberties b1 x y = get_liberties b2 x y := by
  unfold get_liberties
  rw [hs, hg, get_group_congr hs hg]

theorem get_group_of_stone {b : GoBoard} {x y : ℤ} (hob : is_on_board b.size x y)
    (hcol : gfun b (x, y) ≠ EMPTY) :
    get_group b x y =
      comp b.size (fun q => decide (gfun b q = gfun b (x, y))) (x, y) := by
  unfold get_group
  rw [if_neg]
  push_neg
  exact ⟨hob, hcol⟩

theorem get_group_subset_cells (b : GoBoard) (x y : ℤ) :
    get_group b x y ⊆ cells b.size := by
  unfold get_group
  split_ifs with h
  · exact Finset.empty_subset _
  · push_neg at h
    intro q hq
    have := comp_subset_insert b.size _ _ hq
    rw [Finset.insert_eq_self.2 (mem_cells.2 h.1)] at this
    exact this

theorem self_mem_get_group {b : GoBoard} {x y : ℤ} (hob : is_on_board b.size x y)
    (hcol : gfun b (x, y) ≠ EMPTY) : (x, y) ∈ get_group b x y := by
  rw [get_group_of_stone hob hcol]
  exact mem_comp_self _ _ _

theorem get_group_color {b : GoBoard} {x y : ℤ} {q : Pos}
    (hq : q ∈ get_group b x y) : gfun b q = gfun b (x, y) := by
  unfold get_group at hq
  split_ifs at hq with h
  · exact absurd hq (Finset.not_mem_empty q)
  · rcases comp_mem_pred hq with rfl | ⟨_, hp⟩
    · rfl
    · exact of_decide_eq_true hp

/-- Every stone of a group has the same group and the same liberties as the
seed. -/
theorem get_group_eq_of_mem {b : GoBoard} {x y : ℤ} {q : Pos}
    (hob : is_on_board b.size x y) (hcol : gfun b (x, y) ≠ EMPTY)
    (hq : q ∈ get_group b x y) : get_group b q.1 q.2 = get_group b x y := by
  have hqc : q ∈ cells b.size := get_group_subset_cells b x y hq
  have hcolq : gfun b q = gfun b (x, y) := get_group_color hq
  have hobq : is_on_board b.size q.1 q.2 := mem_cells.1 hqc
  rw [get_group_of_stone hob hcol] at hq ⊢
  rw [get_group_of_stone hobq (hcolq ▸ hcol)]
  have hpredeq : (fun r => decide (gfun b r = gfun b (q.1, q.2))) =
      (fun r => decide (gfun b r = gfun b (x, y))) := by
    funext r
    have : (q.1, q.2) = q := rfl
    rw [this, hcolq]
  rw [hpredeq]
  exact comp_eq_of_mem (mem_cells.2 hob) (by simp) hq

theorem get_liberties_eq_of_mem {b : GoBoard} {x y : ℤ} {q : Pos}
    (hob : is_on_board b.size x y) (hcol : gfun b (x, y) ≠ EMPTY)
    (hq : q ∈ get_group b x y) : get_liberties b q.1 q.2 = get_liberties b x y := by
  have hqc : q ∈ cells b.size := get_group_subset_cells b x y hq
  have hcolq : gfun b q = gfun b (x, y) := get_group_color hq
  have hobq : is_on_board b.size q.1 q.2 := mem_cells.1 hqc
  unfold get_liberties
  rw [if_neg, if_neg]
  · rw [get_group_eq_of_mem hob hcol hq]
  · push_neg
    exact ⟨hob, hcol⟩
  · push_neg
    constructor
    · exact hobq
    · have : (q.1, q.2) = q := rfl
      rw [this, hcolq]
      exact hcol

theorem not_adj_group {b : GoBoard} {x y : ℤ} {u : Pos}
    (hob : is_on_board b.size x y) (hcol : gfun b (x, y) ≠ EMPTY)
    (hu_cells : u ∈ cells b.size) (hucol : gfun b u = gfun b (x, y))
    (hu : u ∉ get_group b x y) :
    ∀ r ∈ get_group b x y, u ∉ get_adjacent_points b.size r.1 r.2 := by
  intro r hr hadj
  apply hu
  rw [get_group_of_stone hob hcol] at hr ⊢
  exact comp_closed hr hu_cells (decide_eq_true hucol) hadj

/-- Removing a set of cells disjoint from and not adjacent to a group leaves
the group unchanged. -/
theorem get_group_remove_cells {b : GoBoard} {U : Finset Pos} {x y : ℤ}
    (hob : is_on_board b.size x y) (hcol : gfun b (x, y) ≠ EMPTY)
    (hxyU : (x, y) ∉ U)
    (hnadj : ∀ u ∈ U, ∀ r ∈ get_group b x y,
      u ∉ get_adjacent_points b.size r.1 r.2) :
    get_group (remove_cells b U) x y = get_group b x y := by
  have hg1 : gfun (remove_cells b U) (x, y) = gfun b (x, y) := by
    rw [gfun_remove_cells, if_neg hxyU]
  have hob' : is_on_board (remove_cells b U).size x y := hob
  rw [get_group_of_stone hob' (hg1 ▸ hcol), get_group_of_stone hob hcol]
  show comp b.size _ _ = comp b.size _ _
  apply comp_congr
  intro q hq hex
  obtain ⟨s, hs, hadj⟩ := hex
  have hsG : s ∈ get_group b x y := by
    rw [get_group_of_stone hob hcol]
    exact hs
  have hqU : q ∉ U := fun h => hnadj q h s hsG hadj
  rw [gfun_remove_cells, if_neg hqU, hg1]

/-- Removing a set of cells disjoint from and not adjacent to a group leaves
its liberties unchanged. -/
theorem get_liberties_remove_cells {b : GoBoard} {U : Finset Pos} {x y : ℤ}
    (hob : is_on_board b.size x y) (hcol : gfun b (x, y) ≠ EMPTY)
    (hxyU : (x, y) ∉ U)
    (hnadj : ∀ u ∈ U, ∀ r ∈ get_group b x y,
      u ∉ get_adjacent_points b.size r.1 r.2) :
    get_liberties (remove_cells b U) x y = get_liberties b x y := by
  have hg1 : gfun (remove_cells b U) (x, y) = gfun b (x, y) := by
    rw [gfun_remove_cells, if_neg hxyU]
  have hgrp := get_group_remove_cells hob hcol hxyU hnadj
  unfold get_liberties
  rw [if_neg, if_neg]
  · show Finset.filter _ (cells b.size) = Finset.filter _ (cells b.size)
    apply Finset.filter_congr
    intro q hq
    rw [hgrp]
    constructor
    · rintro ⟨hge, s, hs, hadj⟩
      have hqU : q ∉ U := fun h => hnadj q h s hs hadj
      rw [gfun_remove_cells, if_neg hqU] at hge
      exact ⟨hge, s, hs, hadj⟩
    · rintro ⟨hge, s, hs, hadj⟩
      have hqU : q ∉ U := fun h => hnadj q h s hs hadj
      rw [gfun_remove_cells, if_neg hqU]
      exact ⟨hge, s, hs, hadj⟩
  · push_neg
    exact ⟨hob, hcol⟩
  · push_neg
    exact ⟨hob, hg1 ▸ hcol⟩

/-- The union of the opponent groups that the capture loop will find dead,
computed on the board `B` right after the placement. -/
def dead_union (B : GoBoard) (opp : ℕ) : List Pos → Finset Pos
  | [] => ∅
  | q :: rest =>
    if gfun B q = opp ∧ count_liberties B q.1 q.2 = 0 then
      get_group B q.1 q.2 ∪ dead_union B opp rest
    else dead_union B opp rest

theorem mem_dead_union {B : GoBoard} {opp : ℕ} {L : List Pos} {r : Pos} :
    r ∈ dead_union B opp L ↔
      ∃ q ∈ L, gfun B q = opp ∧ count_liberties B q.1 q.2 = 0 ∧
        r ∈ get_group B q.1 q.2 := by
  induction L with
  | nil => simp [dead_union]
  | cons q rest ih =>
    simp only [dead_union]
    split_ifs with h
    · simp only [Finset.mem_union, ih, List.mem_cons]
      constructor
      · rintro (hr | ⟨s, hs, h1, h2, h3⟩)
        · exact ⟨q, Or.inl rfl, h.1, h.2, hr⟩
        · exact ⟨s, Or.inr hs, h1, h2, h3⟩
      · rintro ⟨s, rfl | hs, h1, h2, h3⟩
        · exact Or.inl h3
        · exact Or.inr ⟨s, hs, h1, h2, h3⟩
    · rw [ih]
      constructor
      · rintro ⟨s, hs, h1, h2, h3⟩
        exact ⟨s, List.mem_cons_of_mem q hs, h1, h2, h3⟩
      · rintro ⟨s, hs, h1, h2, h3⟩
        rcases List.mem_cons.1 hs with heq | hs'
        · exact absurd ⟨heq ▸ h1, heq ▸ h2⟩ h
        · exact ⟨s, hs', h1, h2, h3⟩

/-- The invariant of the capture loop's removed set: a union of complete
dead opponent groups of the base board. -/
def UInv (B : GoBoard) (opp : ℕ) (U : Finset Pos) : Prop :=
  ∀ u ∈ U, u ∈ cells B.size ∧ gfun B u = opp ∧
    get_group B u.1 u.2 ⊆ U ∧ count_liberties B u.1 u.2 = 0

theorem add_captured_cb (b : GoBoard) (c k : ℕ) :
    (add_captured b c k).captured_black =
      b.captured_black + (if c = BLACK then k else 0) := by
  unfold add_captured
  split_ifs <;> simp_all

theorem add_captured_cw (b : GoBoard) (c k : ℕ) :
    (add_captured b c k).captured_white =
      b.captured_white + (if c = WHITE then k else 0) := by
  unfold add_captured
  split_ifs <;> simp_all [BLACK, WHITE]

theorem sdiff_sdiff_union {A U G : Finset Pos} : (A \ U) \ G = A \ (U ∪ G) := by
  ext a
  simp only [Finset.mem_sdiff, Finset.mem_union, not_or]
  tauto

theorem opp_ne_empty {opp : ℕ} (hopp : opp = BLACK ∨ opp = WHITE) :
    opp ≠ EMPTY := by
  rcases hopp with rfl | rfl <;> simp [EMPTY, BLACK, WHITE]

/-- No cell of the removed set `U` (a union of complete groups) touches the
group of a dead opponent stone `q` not yet removed. -/
theorem U_not_adj_group {B : GoBoard} {opp : ℕ} {U : Finset Pos} {q : Pos}
    (hU : UInv B opp U) (hqU : q ∉ U) (hq_cells : q ∈ cells B.size)
    (hqcol : gfun B q = opp) (hopp : opp = BLACK ∨ opp = WHITE) :
    ∀ u ∈ U, ∀ r ∈ get_group B q.1 q.2,
      u ∉ get_adjacent_points B.size r.1 r.2 := by
  have hobq : is_on_board B.size q.1 q.2 := mem_cells.1 hq_cells
  have hcolq : gfun B (q.1, q.2) ≠ EMPTY := by
    show gfun B q ≠ EMPTY
    rw [hqcol]
    exact opp_ne_empty hopp
  intro u hu r hr hadj
  obtain ⟨huc, hucol, hugrp, -⟩ := hU u hu
  have humem : u ∈ get_group B q.1 q.2 := by
    rw [get_group_of_stone hobq hcolq] at hr ⊢
    refine comp_closed hr huc (decide_eq_true ?_) hadj
    show gfun B u = gfun B q
    rw [hucol, hqcol]
  have hgg : get_group B u.1 u.2 = get_group B q.1 q.2 :=
    get_group_eq_of_mem hobq hcolq humem
  have hqmem : q ∈ get_group B q.1 q.2 := self_mem_get_group hobq hcolq
  rw [← hgg] at hqmem
  exact hqU (hugrp hqmem)

/-- Master lemma for the capture loop of `play_move`: processing a list of
on-board points on a board that is the base board `B` minus an already
removed union of dead groups `U` removes exactly `U ∪ dead_union B opp L`,
counts its cardinality, credits it to `cur`, and tracks the single-stone ko
candidate. -/
theorem capture_loop_spec (B : GoBoard) (cur opp : ℕ)
    (hopp : opp = BLACK ∨ opp = WHITE) :
    ∀ (L : List Pos) (bcur : GoBoard) (U : Finset Pos) (pko : Option Pos),
      (∀ q ∈ L, q ∈ cells B.size) → UInv B opp U →
      bcur.blacks = B.blacks \ U → bcur.whites = B.whites \ U →
      bcur.size = B.size →
      bcur.captured_black =
        B.captured_black + (if cur = BLACK then U.card else 0) →
      bcur.captured_white =
        B.captured_white + (if cur = WHITE then U.card else 0) →
      (∀ z, U = {z} → pko = some z) →
      (capture_loop cur opp L bcur U.card pko).1.blacks =
          B.blacks \ (U ∪ dead_union B opp L) ∧
        (capture_loop cur opp L bcur U.card pko).1.whites =
          B.whites \ (U ∪ dead_union B opp L) ∧
        (capture_loop cur opp L bcur U.card pko).1.size = B.size ∧
        (capture_loop cur opp L bcur U.card pko).1.current_player =
          bcur.current_player ∧
        (capture_loop cur opp L bcur U.card pko).1.ko_point = bcur.ko_point ∧
        (capture_loop cur opp L bcur U.card pko).1.move_history =
          bcur.move_history ∧
        (capture_loop cur opp L bcur U.card pko).1.pass_count =
          bcur.pass_count ∧
        (capture_loop cur opp L bcur U.card pko).1.captured_black =
          B.captured_black +
            (if cur = BLACK then (U ∪ dead_union B opp L).card else 0) ∧
        (capture_loop cur opp L bcur U.card pko).1.captured_white =
          B.captured_white +
            (if cur = WHITE then (U ∪ dead_union B opp L).card else 0) ∧
        (capture_loop cur opp L bcur U.card pko).2.1 =
          (U ∪ dead_union B opp L).card ∧
        (∀ z, U ∪ dead_union B opp L = {z} →
          (capture_loop cur opp L bcur U.card pko).2.2 = some z) := by
  intro L
  induction L with
  | nil =>
    intro bcur U pko hL hU hbl hwh hsz hcb hcw hpko
    have hde : U ∪ dead_union B opp [] = U := by
      rw [show dead_union B opp ([] : List Pos) = ∅ from rfl, Finset.union_empty]
    rw [hde]
    exact ⟨hbl, hwh, hsz, rfl, rfl, rfl, rfl, hcb, hcw, rfl, hpko⟩
  | cons q rest ih =>
    intro bcur U pko hL hU hbl hwh hsz hcb hcw hpko
    have hq_cells : q ∈ cells B.size := hL q (List.mem_cons_self q rest)
    have hLrest : ∀ r ∈ rest, r ∈ cells B.size :=
      fun r hr => hL r (List.mem_cons_of_mem q hr)
    by_cases hqU : q ∈ U
    · -- the stone at q was already removed as part of an earlier group
      obtain ⟨huc, hucol, hugrp, hulib⟩ := hU q hqU
      have hg0 : gfun bcur q = EMPTY := by
        have h1 : q ∉ bcur.blacks := by
          rw [hbl, Finset.mem_sdiff]
          tauto
        have h2 : q ∉ bcur.whites := by
          rw [hwh, Finset.mem_sdiff]
          tauto
        unfold gfun
        rw [if_neg h1, if_neg h2]
      have hcond : ¬(gfun bcur q = opp ∧ count_liberties bcur q.1 q.2 = 0) := by
        rintro ⟨h1, -⟩
        rw [hg0] at h1
        exact opp_ne_empty hopp h1.symm
      have hstep : capture_loop cur opp (q :: rest) bcur U.card pko =
          capture_loop cur opp rest bcur U.card pko := by
        simp only [capture_loop]
        rw [if_neg hcond]
      have hdu : dead_union B opp (q :: rest) =
          get_group B q.1 q.2 ∪ dead_union B opp rest := by
        simp only [dead_union]
        rw [if_pos ⟨hucol, hulib⟩]
      have hUabs : U ∪ dead_union B opp (q :: rest) =
          U ∪ dead_union B opp rest := by
        rw [hdu, ← Finset.union_assoc,
          Finset.union_eq_left.2 hugrp]
      rw [hstep, hUabs]
      exact ih bcur U pko hLrest hU hbl hwh hsz hcb hcw hpko
    · have hgq : gfun bcur q = gfun B q := by
        unfold gfun
        rw [hbl, hwh]
        simp [Finset.mem_sdiff, hqU]
      by_cases hqB : gfun B q = opp ∧ count_liberties B q.1 q.2 = 0
      · -- a dead opponent group is found and removed
        have hobq : is_on_board B.size q.1 q.2 := mem_cells.1 hq_cells
        have hcolq : gfun B (q.1, q.2) ≠ EMPTY := by
          show gfun B q ≠ EMPTY
          rw [hqB.1]
          exact opp_ne_empty hopp
        have hnadj := U_not_adj_group hU hqU hq_cells hqB.1 hopp
        have hgfun_eq : gfun bcur = gfun (remove_cells B U) :=
          gfun_eq_of_parts (by rw [hbl]; rfl) (by rw [hwh]; rfl)
        have hsz' : bcur.size = (remove_cells B U).size := hsz
        have hgrp_eq : get_group bcur q.1 q.2 = get_group B q.1 q.2 := by
          rw [get_group_congr hsz' hgfun_eq,
            get_group_remove_cells hobq hcolq hqU hnadj]
        have hlib_eq : count_liberties bcur q.1 q.2 =
            count_liberties B q.1 q.2 := by
          unfold count_liberties
          rw [get_liberties_congr hsz' hgfun_eq,
            get_liberties_remove_cells hobq hcolq hqU hnadj]
        have hcond : gfun bcur q = opp ∧ count_liberties bcur q.1 q.2 = 0 :=
          ⟨by rw [hgq]; exact hqB.1, by rw [hlib_eq]; exact hqB.2⟩
        have hdisj : Disjoint U (get_group B q.1 q.2) := by
          rw [Finset.disjoint_right]
          intro a ha haU
          obtain ⟨-, -, hagrp, -⟩ := hU a haU
          have hgg : get_group B a.1 a.2 = get_group B q.1 q.2 :=
            get_group_eq_of_mem hobq hcolq ha
          have hqmem : q ∈ get_group B q.1 q.2 := self_mem_get_group hobq hcolq
          rw [← hgg] at hqmem
          exact hqU (hagrp hqmem)
        have hcard : (U ∪ get_group B q.1 q.2).card =
            U.card + (get_group B q.1 q.2).card :=
          Finset.card_union_of_disjoint hdisj
        have hstep : capture_loop cur opp (q :: rest) bcur U.card pko =
            capture_loop cur opp rest
              (add_captured (remove_cells bcur (get_group B q.1 q.2)) cur
                (get_group B q.1 q.2).card)
              (U ∪ get_group B q.1 q.2).card
              (if (get_group B q.1 q.2).card = 1 then some q else pko) := by
          simp only [capture_loop]
          rw [if_pos hcond, hgrp_eq, hcard]
        have hU' : UInv B opp (U ∪ get_group B q.1 q.2) := by
          intro u hu
          rcases Finset.mem_union.1 hu with hu' | hu'
          · obtain ⟨h1, h2, h3, h4⟩ := hU u hu'
            exact ⟨h1, h2, h3.trans Finset.subset_union_left, h4⟩
          · refine ⟨get_group_subset_cells B q.1 q.2 hu', ?_, ?_, ?_⟩
            · have hc := get_group_color hu'
              rw [hc]
              exact hqB.1
            · rw [get_group_eq_of_mem hobq hcolq hu']
              exact Finset.subset_union_right
            · unfold count_liberties
              rw [get_liberties_eq_of_mem hobq hcolq hu']
              exact hqB.2
        have hbl' : (add_captured (remove_cells bcur (get_group B q.1 q.2)) cur
            (get_group B q.1 q.2).card).blacks =
            B.blacks \ (U ∪ get_group B q.1 q.2) := by
          rw [(add_captured_grid _ _ _).1]
          show bcur.blacks \ get_group B q.1 q.2 = _
          rw [hbl, sdiff_sdiff_union]
        have hwh' : (add_captured (remove_cells bcur (get_group B q.1 q.2)) cur
            (get_group B q.1 q.2).card).whites =
            B.whites \ (U ∪ get_group B q.1 q.2) := by
          rw [(add_captured_grid _ _ _).2.1]
          show bcur.whites \ get_group B q.1 q.2 = _
          rw [hwh, sdiff_sdiff_union]
        have hsz2 : (add_captured (remove_cells bcur (get_group B q.1 q.2)) cur
            (get_group B q.1 q.2).card).size = B.size := by
          rw [(add_captured_grid _ _ _).2.2]
          exact hsz
        have hcb' : (add_captured (remove_cells bcur (get_group B q.1 q.2)) cur
            (get_group B q.1 q.2).card).captured_black =
            B.captured_black +
              (if cur = BLACK then (U ∪ get_group B q.1 q.2).card else 0) := by
          rw [add_captured_cb]
          show bcur.captured_black + _ = _
          rw [hcb, hcard]
          split_ifs <;> omega
        have hcw' : (add_captured (remove_cells bcur (get_group B q.1 q.2)) cur
            (get_group B q.1 q.2).card).captured_white =
            B.captured_white +
              (if cur = WHITE then (U ∪ get_group B q.1 q.2).card else 0) := by
          rw [add_captured_cw]
          show bcur.captured_white + _ = _
          rw [hcw, hcard]
          split_ifs <;> omega
        have hpko' : ∀ z, U ∪ get_group B q.1 q.2 = {z} →
            (if (get_group B q.1 q.2).card = 1 then some q else pko) =
              some z := by
          intro z hz
          have hqgrp : q ∈ get_group B q.1 q.2 := self_mem_get_group hobq hcolq
          have hqz : q = z := by
            have hmem : q ∈ U ∪ get_group B q.1 q.2 :=
              Finset.mem_union_right _ hqgrp
            rw [hz] at hmem
            exact Finset.mem_singleton.1 hmem
          have hgrpz : get_group B q.1 q.2 = {z} := by
            apply Finset.Subset.antisymm
            · exact hz ▸ Finset.subset_union_right
            · intro a ha
              rw [Finset.mem_singleton] at ha
              subst ha
              exact hqz ▸ hqgrp
          have hone : (get_group B q.1 q.2).card = 1 := by
            rw [hgrpz]
            exact Finset.card_singleton z
          rw [if_pos hone, hqz]
        have hdu : dead_union B opp (q :: rest) =
            get_group B q.1 q.2 ∪ dead_union B opp rest := by
          simp only [dead_union]
          rw [if_pos hqB]
        have hsets : U ∪ dead_union B opp (q :: rest) =
            (U ∪ get_group B q.1 q.2) ∪ dead_union B opp rest := by
          rw [hdu, Finset.union_assoc]
        have hflds :
            (add_captured (remove_cells bcur (get_group B q.1 q.2)) cur
              (get_group B q.1 q.2).card).current_player = bcur.current_player ∧
            (add_captured (remove_cells bcur (get_group B q.1 q.2)) cur
              (get_group B q.1 q.2).card).ko_point = bcur.ko_point ∧
            (add_captured (remove_cells bcur (get_group B q.1 q.2)) cur
              (get_group B q.1 q.2).card).move_history = bcur.move_history ∧
            (add_captured (remove_cells bcur (get_group B q.1 q.2)) cur
              (get_group B q.1 q.2).card).pass_count = bcur.pass_count :=
          add_captured_fields _ _ _
        obtain ⟨c1, c2, c3, c4, c5, c6, c7, c8, c9, c10, c11⟩ :=
          ih (add_captured (remove_cells bcur (get_group B q.1 q.2)) cur
              (get_group B q.1 q.2).card)
            (U ∪ get_group B q.1 q.2)
            (if (get_group B q.1 q.2).card = 1 then some q else pko)
            hLrest hU' hbl' hwh' hsz2 hcb' hcw' hpko'
        rw [hstep, hsets]
        exact ⟨c1, c2, c3, c4.trans hflds.1, c5.trans hflds.2.1,
          c6.trans hflds.2.2.1, c7.trans hflds.2.2.2, c8, c9, c10, c11⟩
      · -- the neighbor is not a dead opponent stone
        have hcond : ¬(gfun bcur q = opp ∧
            count_liberties bcur q.1 q.2 = 0) := by
          rintro ⟨h1, h2⟩
          rw [hgq] at h1
          apply hqB
          refine ⟨h1, ?_⟩
          have hobq : is_on_board B.size q.1 q.2 := mem_cells.1 hq_cells
          have hcolq : gfun B (q.1, q.2) ≠ EMPTY := by
            show gfun B q ≠ EMPTY
            rw [h1]
            exact opp_ne_empty hopp
          have hnadj := U_not_adj_group hU hqU hq_cells h1 hopp
          have hgfun_eq : gfun bcur = gfun (remove_cells B U) :=
            gfun_eq_of_parts (by rw [hbl]; rfl) (by rw [hwh]; rfl)
          have hsz' : bcur.size = (remove_cells B U).size := hsz
          have hlib_eq : count_liberties bcur q.1 q.2 =
              count_liberties B q.1 q.2 := by
            unfold count_liberties
            rw [get_liberties_congr hsz' hgfun_eq,
              get_liberties_remove_cells hobq hcolq hqU hnadj]
          rw [← hlib_eq]
          exact h2
        have hstep : capture_loop cur opp (q :: rest) bcur U.card pko =
            capture_loop cur opp rest bcur U.card pko := by
          simp only [capture_loop]
          rw [if_neg hcond]
        have hdu : dead_union B opp (q :: rest) = dead_union B opp rest := by
          simp only [dead_union]
          rw [if_neg hqB]
        rw [hstep, hdu]
        exact ih bcur U pko hLrest hU hbl hwh hsz hcb hcw hpko

theorem set_cell_fields (b : GoBoard) (p : Pos) (v : ℕ) :
    (set_cell b p v).current_player = b.current_player ∧
      (set_cell b p v).ko_point = b.ko_point ∧
      (set_cell b p v).move_history = b.move_history ∧
      (set_cell b p v).captured_black = b.captured_black ∧
      (set_cell b p v).captured_white = b.captured_white ∧
      (set_cell b p v).pass_count = b.pass_count := by
  unfold set_cell
  split_ifs <;> exact ⟨rfl, rfl, rfl, rfl, rfl, rfl⟩

theorem count_liberties_congr {b1 b2 : GoBoard} (hs : b1.size = b2.size)
    (hg : gfun b1 = gfun b2) (x y : ℤ) :
    count_liberties b1 x y = count_liberties b2 x y := by
  unfold count_liberties
  rw [get_liberties_congr hs hg]

theorem opponent_of_color (c : ℕ) :
    opponent_of c = BLACK ∨ opponent_of c = WHITE := by
  unfold opponent_of
  split_ifs <;> simp

theorem opponent_of_ne {c : ℕ} (hc : c = BLACK ∨ c = WHITE) :
    opponent_of c ≠ c := by
  rcases hc with rfl | rfl <;> simp [opponent_of, BLACK, WHITE]

theorem set_cell_congr_parts {b1 b2 : GoBoard} (hb : b1.blacks = b2.blacks)
    (hw : b1.whites = b2.whites) (p : Pos) (v : ℕ) :
    (set_cell b1 p v).blacks = (set_cell b2 p v).blacks ∧
      (set_cell b1 p v).whites = (set_cell b2 p v).whites := by
  unfold set_cell
  split_ifs <;> simp [hb, hw]

theorem has_liberties_in_copy_congr {b1 b2 : GoBoard} (hs : b1.size = b2.size)
    (hg : gfun b1 = gfun b2) (x y : ℤ) :
    has_liberties_in_copy b1 x y = has_liberties_in_copy b2 x y := by
  unfold has_liberties_in_copy
  rw [hs, hg]

theorem would_be_suicide_congr {b1 b2 : GoBoard} (hs : b1.size = b2.size)
    (hb : b1.blacks = b2.blacks) (hw : b1.whites = b2.whites) (x y : ℤ) (c : ℕ) :
    would_be_suicide b1 x y c = would_be_suicide b2 x y c := by
  simp only [would_be_suicide]
  have hparts := set_cell_congr_parts hb hw (x, y) c
  have hg : gfun (set_cell b1 (x, y) c) = gfun (set_cell b2 (x, y) c) :=
    gfun_eq_of_parts hparts.1 hparts.2
  have hs2 : (set_cell b1 (x, y) c).size = (set_cell b2 (x, y) c).size := by
    rw [set_cell_size, set_cell_size, hs]
  rw [has_liberties_in_copy_congr hs2 hg, hs, hg]
  simp only [fun a b => has_liberties_in_copy_congr hs2 hg a b]

theorem is_valid_move_congr {b1 b2 : GoBoard} (hs : b1.size = b2.size)
    (hb : b1.blacks = b2.blacks) (hw : b1.whites = b2.whites)
    (hk : b1.ko_point = b2.ko_point) (hc : b1.current_player = b2.current_player)
    (x y : ℤ) : is_valid_move b1 x y = is_valid_move b2 x y := by
  unfold is_valid_move is_ko
  rw [hs, hk, hc, gfun_eq_of_parts hb hw, would_be_suicide_congr hs hb hw]

/-- The four components of a passed `is_valid_move`. -/
theorem is_valid_move_parts {b : GoBoard} {x y : ℤ}
    (hv : is_valid_move b x y = true) :
    is_on_board b.size x y ∧ gfun b (x, y) = EMPTY ∧
      is_ko b x y = false ∧ would_be_suicide b x y b.current_player = false := by
  unfold is_valid_move at hv
  split_ifs at hv with h1 h2 h3 h4
  refine ⟨h1, not_not.1 h2, ?_, ?_⟩
  · revert h3
    cases is_ko b x y <;> simp
  · revert h4
    cases would_be_suicide b x y b.current_player <;> simp

theorem is_valid_move_of_parts {b : GoBoard} {x y : ℤ}
    (h1 : is_on_board b.size x y) (h2 : gfun b (x, y) = EMPTY)
    (h3 : is_ko b x y = false)
    (h4 : would_be_suicide b x y b.current_player = false) :
    is_valid_move b x y = true := by
  unfold is_valid_move
  rw [if_neg (not_not.2 h1), if_neg (not_not.2 h2), h3, h4]
  rfl

/-- The board right after the stone is placed in `play_move` (the state on
which the capture loop starts). -/
def placed_board (b : GoBoard) (x y : ℤ) : GoBoard :=
  { set_cell { b with pass_count := 0 } (x, y) b.current_player with
      move_history := b.move_history ++ [(x, y)] }

/-- The union of the opponent groups killed by playing at `(x, y)`. -/
def dead_set (b : GoBoard) (x y : ℤ) : Finset Pos :=
  dead_union (placed_board b x y) (opponent_of b.current_player)
    (get_adjacent_points b.size x y)

theorem placed_board_size (b : GoBoard) (x y : ℤ) :
    (placed_board b x y).size = b.size := by
  show (set_cell { b with pass_count := 0 } (x, y) b.current_player).size = _
  rw [set_cell_size]

theorem gfun_placed {b : GoBoard} (hwf : Wf b) (x y : ℤ) (q : Pos) :
    gfun (placed_board b x y) q =
      if q = (x, y) then b.current_player else gfun b q := by
  have h1 : gfun (placed_board b x y) =
      gfun (set_cell { b with pass_count := 0 } (x, y) b.current_player) :=
    gfun_eq_of_parts rfl rfl
  rw [h1, gfun_set_cell _ _ _ (Or.inr hwf.1)]
  rfl

/-- `play_move` on the pass sentinel. -/
theorem play_move_pass (b : GoBoard) :
    play_move b (-1) (-1) =
      (true, { b with pass_count := b.pass_count + 1,
                      move_history := b.move_history ++ [((-1 : ℤ), (-1 : ℤ))],
                      current_player := opponent_of b.current_player,
                      ko_point := none }) := by
  unfold play_move
  rw [if_pos ⟨rfl, rfl⟩]

/-- `play_move` on an invalid placement: it reports failure, but only after
having already reset `pass_count` to `0`. -/
theorem play_move_invalid {b : GoBoard} {x y : ℤ}
    (hnp : ¬(x = -1 ∧ y = -1)) (hv : is_valid_move b x y = false) :
    play_move b x y = (false, { b with pass_count := 0 }) := by
  have hv0 : is_valid_move { b with pass_count := 0 } x y = false := by
    rw [@is_valid_move_congr { b with pass_count := 0 } b rfl rfl rfl rfl rfl x y]
    exact hv
  simp only [play_move]
  rw [if_neg hnp, hv0]
  rw [if_pos rfl]

/-- The result of the capture phase of a (valid) placement. -/
def capture_result (b : GoBoard) (x y : ℤ) : GoBoard × ℕ × Option Pos :=
  capture_loop b.current_player (opponent_of b.current_player)
    (get_adjacent_points b.size x y) (placed_board b x y) 0 none

/-- `play_move` on a valid placement, written through `capture_result`. -/
theorem play_move_valid_eq {b : GoBoard} {x y : ℤ}
    (hnp : ¬(x = -1 ∧ y = -1)) (hv : is_valid_move b x y = true) :
    play_move b x y =
      (true,
        { (capture_result b x y).1 with
            ko_point :=
              if (capture_result b x y).2.1 = 1 ∧
                  (capture_result b x y).2.2.isSome = true then
                if count_liberties (capture_result b x y).1 x y = 1 then
                  (capture_result b x y).2.2
                else none
              else none,
            current_player := opponent_of b.current_player }) := by
  have hv0 : is_valid_move { b with pass_count := 0 } x y = true := by
    rw [@is_valid_move_congr { b with pass_count := 0 } b rfl rfl rfl rfl rfl x y]
    exact hv
  simp only [play_move]
  rw [if_neg hnp, hv0]
  rw [if_neg (by simp : ¬(true = false))]
  rfl

/-- Master description of a valid placement: the success flag, every field
of the next state, and the ko behavior, in terms of the placed board and the
set of dead stones. -/
theorem play_move_spec (b : GoBoard) (x y : ℤ) (hwf : Wf b)
    (hv : is_valid_move b x y = true) :
    (play_move b x y).1 = true ∧
      (play_move b x y).2.blacks = (placed_board b x y).blacks \ dead_set b x y ∧
      (play_move b x y).2.whites = (placed_board b x y).whites \ dead_set b x y ∧
      (play_move b x y).2.size = b.size ∧
      (play_move b x y).2.current_player = opponent_of b.current_player ∧
      (play_move b x y).2.move_history = b.move_history ++ [(x, y)] ∧
      (play_move b x y).2.pass_count = 0 ∧
      (play_move b x y).2.captured_black =
        b.captured_black +
          (if b.current_player = BLACK then (dead_set b x y).card else 0) ∧
      (play_move b x y).2.captured_white =
        b.captured_white +
          (if b.current_player = WHITE then (dead_set b x y).card else 0) ∧
      (∀ z, dead_set b x y = {z} →
        (play_move b x y).2.ko_point =
          (if count_liberties (play_move b x y).2 x y = 1 then some z else none)) ∧
      ((dead_set b x y).card ≠ 1 → (play_move b x y).2.ko_point = none) := by
  obtain ⟨hob, hemp, hko, hsui⟩ := is_valid_move_parts hv
  have hnp : ¬(x = -1 ∧ y = -1) := by
    rintro ⟨rfl, rfl⟩
    unfold is_on_board at hob
    omega
  have hpm := play_move_valid_eq hnp hv
  have hBsz : (placed_board b x y).size = b.size := placed_board_size b x y
  have hBcapb : (placed_board b x y).captured_black = b.captured_black := by
    show (set_cell { b with pass_count := 0 } (x, y)
      b.current_player).captured_black = _
    exact (set_cell_fields _ _ _).2.2.2.1
  have hBcapw : (placed_board b x y).captured_white = b.captured_white := by
    show (set_cell { b with pass_count := 0 } (x, y)
      b.current_player).captured_white = _
    exact (set_cell_fields _ _ _).2.2.2.2.1
  have hBpc : (placed_board b x y).pass_count = 0 := by
    show (set_cell { b with pass_count := 0 } (x, y)
      b.current_player).pass_count = _
    rw [(set_cell_fields _ _ _).2.2.2.2.2]
  have hL : ∀ q ∈ get_adjacent_points b.size x y,
      q ∈ cells (placed_board b x y).size := by
    intro q hq
    rw [hBsz]
    exact adjacent_mem_cells hq
  have hsp := capture_loop_spec (placed_board b x y) b.current_player
      (opponent_of b.current_player) (opponent_of_color _)
      (get_adjacent_points b.size x y) (placed_board b x y) ∅ none
      hL (fun u hu => absurd hu (Finset.not_mem_empty u))
      Finset.sdiff_empty.symm Finset.sdiff_empty.symm rfl
      (by simp) (by simp)
      (fun z hz => absurd hz.symm (Finset.singleton_ne_empty z))
  simp only [Finset.card_empty, Finset.empty_union] at hsp
  have hfoldD : dead_union (placed_board b x y) (opponent_of b.current_player)
      (get_adjacent_points b.size x y) = dead_set b x y := rfl
  have hfoldC : capture_loop b.current_player (opponent_of b.current_player)
      (get_adjacent_points b.size x y) (placed_board b x y) 0 none =
      capture_result b x y := rfl
  rw [hfoldD, hfoldC] at hsp
  obtain ⟨c1, c2, c3, c4, c5, c6, c7, c8, c9, c10, c11⟩ := hsp
  have hclg : count_liberties (play_move b x y).2 x y =
      count_liberties (capture_result b x y).1 x y := by
    rw [hpm]
    exact count_liberties_congr rfl (gfun_eq_of_parts rfl rfl) x y
  rw [hpm] at hclg ⊢
  refine ⟨rfl, c1, c2, c3.trans hBsz, rfl, c6, c7.trans hBpc, ?_, ?_, ?_, ?_⟩
  · rw [← hBcapb]
    exact c8
  · rw [← hBcapw]
    exact c9
  · intro z hz
    have h1 : (capture_result b x y).2.1 = 1 := by
      rw [c10, hz]
      exact Finset.card_singleton z
    have h2 : (capture_result b x y).2.2 = some z := c11 z hz
    show (if (capture_result b x y).2.1 = 1 ∧
        (capture_result b x y).2.2.isSome = true then
          if count_liberties (capture_result b x y).1 x y = 1 then
            (capture_result b x y).2.2
          else none
        else none) = _
    rw [hclg, if_pos ⟨h1, by rw [h2]; rfl⟩, h2]
  · intro hne
    have h1 : ¬((capture_result b x y).2.1 = 1 ∧
        (capture_result b x y).2.2.isSome = true) := by
      rintro ⟨h, -⟩
      exact hne (c10 ▸ h)
    show (if (capture_result b x y).2.1 = 1 ∧
        (capture_result b x y).2.2.isSome = true then
          if count_liberties (capture_result b x y).1 x y = 1 then
            (capture_result b x y).2.2
          else none
        else none) = none
    rw [if_neg h1]

theorem dead_set_opp {b : GoBoard} {x y : ℤ} {r : Pos}
    (hr : r ∈ dead_set b x y) :
    gfun (placed_board b x y) r = opponent_of b.current_player := by
  obtain ⟨q, hq, hcol, hlib, hmem⟩ := mem_dead_union.1 hr
  rw [get_group_color hmem]
  exact hcol

theorem placed_not_in_dead {b : GoBoard} (hwf : Wf b) (x y : ℤ) :
    (x, y) ∉ dead_set b x y := by
  intro h
  have h1 := dead_set_opp h
  rw [gfun_placed hwf x y (x, y), if_pos rfl] at h1
  exact opponent_of_ne hwf.1 h1.symm

/-- The grid after a valid placement: the dead stones are emptied, the
others keep their value from the placed board. -/
theorem gfun_after {b : GoBoard} {x y : ℤ} (hwf : Wf b)
    (hv : is_valid_move b x y = true) (r : Pos) :
    gfun (play_move b x y).2 r =
      (if r ∈ dead_set b x y then EMPTY else gfun (placed_board b x y) r) := by
  obtain ⟨-, c1, c2, -⟩ := play_move_spec b x y hwf hv
  have hg : gfun (play_move b x y).2 =
      gfun (remove_cells (placed_board b x y) (dead_set b x y)) :=
    gfun_eq_of_parts c1 c2
  rw [hg, gfun_remove_cells]

/-!
## C1: `play_move` on an invalid placement
-/

/-- A 2×2 well-formed state with an occupied corner and one recorded pass. -/
def c1_board : GoBoard := ⟨2, {(0, 0)}, ∅, 1, none, [], 0, 0, 1⟩

/-- C1 (counterexample): on a state with `pass_count = 1`, playing the
occupied point `(0, 0)` returns `false` as the claim says, but `pass_count`
is reset to `0`, so the state is not left unchanged. -/
theorem c1_counterexample :
    is_valid_move c1_board 0 0 = false ∧
      (play_move c1_board 0 0).1 = false ∧
      (play_move c1_board 0 0).2.pass_count ≠ c1_board.pass_count :=
  ⟨by decide, by decide, by decide⟩

/-- C1 (amended): for every non-pass coordinate on which `is_valid_move` is
false, `play_move` returns `false` and leaves the grid, `current_player`,
`ko_point`, `move_history` and `captured_stones` unchanged, but resets
`pass_count` to `0` (the reset happens before the validity check). -/
theorem c1_invalid_move_rejected (b : GoBoard) (x y : ℤ)
    (hnp : ¬(x = -1 ∧ y = -1)) (hv : is_valid_move b x y = false) :
    (play_move b x y).1 = false ∧
      (play_move b x y).2.blacks = b.blacks ∧
      (play_move b x y).2.whites = b.whites ∧
      (play_move b x y).2.size = b.size ∧
      (play_move b x y).2.current_player = b.current_player ∧
      (play_move b x y).2.ko_point = b.ko_point ∧
      (play_move b x y).2.move_history = b.move_history ∧
      (play_move b x y).2.captured_black = b.captured_black ∧
      (play_move b x y).2.captured_white = b.captured_white ∧
      (play_move b x y).2.pass_count = 0 := by
  rw [play_move_invalid hnp hv]
  exact ⟨rfl, rfl, rfl, rfl, rfl, rfl, rfl, rfl, rfl, rfl⟩

/-- Witness for the amended C1 at a concrete input. -/
theorem c1_witness :
    ¬((0 : ℤ) = -1 ∧ (0 : ℤ) = -1) ∧ is_valid_move c1_board 0 0 = false ∧
      ((play_move c1_board 0 0).1 = false ∧
        (play_move c1_board 0 0).2.blacks = c1_board.blacks ∧
        (play_move c1_board 0 0).2.whites = c1_board.whites ∧
        (play_move c1_board 0 0).2.size = c1_board.size ∧
        (play_move c1_board 0 0).2.current_player = c1_board.current_player ∧
        (play_move c1_board 0 0).2.ko_point = c1_board.ko_point ∧
        (play_move c1_board 0 0).2.move_history = c1_board.move_history ∧
        (play_move c1_board 0 0).2.captured_black = c1_board.captured_black ∧
        (play_move c1_board 0 0).2.captured_white = c1_board.captured_white ∧
        (play_move c1_board 0 0).2.pass_count = 0) :=
  ⟨by decide, by decide,
    c1_invalid_move_rejected c1_board 0 0 (by decide) (by decide)⟩

/-!
## C2: legality soundness
-/

/-- C2: on a well-formed state, `is_valid_move x y` is true exactly when
`play_move x y` succeeds and the new grid differs from the old one by at
least the stone placed at `(x, y)` (the cell was empty, and now holds the
mover's stone). -/
theorem c2_validity_iff_playable (b : GoBoard) (x y : ℤ) (hwf : Wf b) :
    is_valid_move b x y = true ↔
      ((play_move b x y).1 = true ∧
        gfun (play_move b x y).2 (x, y) = b.current_player ∧
        gfun b (x, y) = EMPTY) := by
  constructor
  · intro hv
    obtain ⟨hob, hemp, -, -⟩ := is_valid_move_parts hv
    obtain ⟨h1, -⟩ := play_move_spec b x y hwf hv
    refine ⟨h1, ?_, hemp⟩
    rw [gfun_after hwf hv, if_neg (placed_not_in_dead hwf x y),
      gfun_placed hwf x y, if_pos rfl]
  · rintro ⟨h1, h2, h3⟩
    by_cases hnp : x = -1 ∧ y = -1
    · exfalso
      obtain ⟨rfl, rfl⟩ := hnp
      rw [play_move_pass] at h2
      have hoff : ((-1 : ℤ), (-1 : ℤ)) ∉ cells b.size := by
        intro h
        have := (mem_cells.1 h).1
        omega
      have hge : gfun (play_move b (-1) (-1)).2 ((-1 : ℤ), (-1 : ℤ)) =
          gfun b ((-1 : ℤ), (-1 : ℤ)) := by
        rw [play_move_pass]
        exact congrFun (gfun_eq_of_parts rfl rfl) _
      rw [play_move_pass] at hge
      rw [hge, gfun_off_board hwf hoff] at h2
      rcases hwf.1 with hc | hc <;> rw [hc] at h2 <;> exact absurd h2 (by decide)
    · by_cases hvv : is_valid_move b x y = true
      · exact hvv
      · exfalso
        have hvf : is_valid_move b x y = false := by
          revert hvv
          cases is_valid_move b x y <;> simp
        rw [play_move_invalid hnp hvf] at h1
        exact Bool.false_ne_true h1

/-- Witness for C2 at a concrete input: a legal corner move on an empty 2×2
board. -/
theorem c2_witness :
    Wf (init_board 2) ∧
      (is_valid_move (init_board 2) 0 0 = true ↔
        ((play_move (init_board 2) 0 0).1 = true ∧
          gfun (play_move (init_board 2) 0 0).2 (0, 0) =
            (init_board 2).current_player ∧
          gfun (init_board 2) (0, 0) = EMPTY)) :=
  ⟨by decide, c2_validity_iff_playable (init_board 2) 0 0 (by decide)⟩

/-!
## C4: capture correctness
-/

/-- C4: a valid placement empties every cell of each adjacent opponent group
left without liberties, credits the mover's capture count with exactly the
total size of the dead groups, and leaves every other cell (outside the dead
stones and the placed stone) unchanged. -/
theorem c4_capture_correctness (b : GoBoard) (x y : ℤ) (hwf : Wf b)
    (hv : is_valid_move b x y = true) :
    (∀ q ∈ get_adjacent_points b.size x y,
      gfun (placed_board b x y) q = opponent_of b.current_player →
        count_liberties (placed_board b x y) q.1 q.2 = 0 →
        ∀ r ∈ get_group (placed_board b x y) q.1 q.2,
          gfun (play_move b x y).2 r = EMPTY) ∧
      (b.current_player = BLACK →
        (play_move b x y).2.captured_black =
          b.captured_black + (dead_set b x y).card) ∧
      (b.current_player = WHITE →
        (play_move b x y).2.captured_white =
          b.captured_white + (dead_set b x y).card) ∧
      (∀ r, r ∉ dead_set b x y → r ≠ (x, y) →
        gfun (play_move b x y).2 r = gfun b r) := by
  obtain ⟨-, -, -, -, -, -, -, c8, c9, -⟩ := play_move_spec b x y hwf hv
  refine ⟨?_, ?_, ?_, ?_⟩
  · intro q hq hcol hlib r hr
    have hrd : r ∈ dead_set b x y :=
      mem_dead_union.2 ⟨q, hq, hcol, hlib, hr⟩
    rw [gfun_after hwf hv, if_pos hrd]
  · intro hc
    rw [c8, if_pos hc]
  · intro hc
    rw [c9, if_pos hc]
  · intro r hrd hrp
    rw [gfun_after hwf hv, if_neg hrd, gfun_placed hwf x y, if_neg hrp]

/-- A 2×2 state where White to play at `(0, 0)` captures both black
stones. -/
def c4_board : GoBoard := ⟨2, {(0, 1), (1, 0)}, {(1, 1)}, 2, none, [], 0, 0, 0⟩

/-- Witness for C4 at a concrete input. -/
theorem c4_witness :
    Wf c4_board ∧ is_valid_move c4_board 0 0 = true ∧
      ((∀ q ∈ get_adjacent_points c4_board.size 0 0,
        gfun (placed_board c4_board 0 0) q =
            opponent_of c4_board.current_player →
          count_liberties (placed_board c4_board 0 0) q.1 q.2 = 0 →
          ∀ r ∈ get_group (placed_board c4_board 0 0) q.1 q.2,
            gfun (play_move c4_board 0 0).2 r = EMPTY) ∧
        (c4_board.current_player = BLACK →
          (play_move c4_board 0 0).2.captured_black =
            c4_board.captured_black + (dead_set c4_board 0 0).card) ∧
        (c4_board.current_player = WHITE →
          (play_move c4_board 0 0).2.captured_white =
            c4_board.captured_white + (dead_set c4_board 0 0).card) ∧
        (∀ r, r ∉ dead_set c4_board 0 0 → r ≠ (0, 0) →
          gfun (play_move c4_board 0 0).2 r = gfun c4_board r)) :=
  ⟨by decide, by decide,
    c4_capture_correctness c4_board 0 0 (by decide) (by decide)⟩

/-!
## C5: ko detection and enforcement
-/

/-- The canonical single-stone ko shape on a 3×3 board: Black to play at
`(2, 0)` captures the single white stone at `(1, 0)` and the new black stone
is left with exactly one liberty. -/
def ko_board : GoBoard :=
  ⟨3, {(0, 0), (1, 1)}, {(1, 0), (2, 1)}, 1, none, [], 0, 0, 0⟩

/-- C5: after a valid placement, `ko_point` is set to the captured point
exactly when the move captured exactly one stone and the placed stone's own
group has exactly one liberty, and is cleared otherwise; in the canonical
single-stone ko shape the immediate recapture is rejected, and one
intervening move elsewhere or a pass clears the ko point. -/
theorem c5_ko_rule (b : GoBoard) (x y : ℤ) (hwf : Wf b)
    (hv : is_valid_move b x y = true) :
    ((∀ z, dead_set b x y = {z} →
        (play_move b x y).2.ko_point =
          (if count_liberties (play_move b x y).2 x y = 1 then some z
            else none)) ∧
      ((dead_set b x y).card ≠ 1 → (play_move b x y).2.ko_point = none)) ∧
      ((play_move ko_board 2 0).1 = true ∧
        (play_move ko_board 2 0).2.ko_point = some (1, 0) ∧
        is_valid_move (play_move ko_board 2 0).2 1 0 = false ∧
        (play_move (play_move ko_board 2 0).2 0 2).1 = true ∧
        (play_move (play_move ko_board 2 0).2 0 2).2.ko_point = none ∧
        (play_move (play_move ko_board 2 0).2 (-1) (-1)).2.ko_point = none) := by
  obtain ⟨-, -, -, -, -, -, -, -, -, c10, c11⟩ := play_move_spec b x y hwf hv
  exact ⟨⟨c10, c11⟩, by decide, by decide, by decide, by decide, by decide,
    by decide⟩

/-- Witness for C5 at the canonical ko input. -/
theorem c5_witness :
    Wf ko_board ∧ is_valid_move ko_board 2 0 = true ∧
      (((∀ z, dead_set ko_board 2 0 = {z} →
          (play_move ko_board 2 0).2.ko_point =
            (if count_liberties (play_move ko_board 2 0).2 2 0 = 1 then some z
              else none)) ∧
        ((dead_set ko_board 2 0).card ≠ 1 →
          (play_move ko_board 2 0).2.ko_point = none)) ∧
        ((play_move ko_board 2 0).1 = true ∧
          (play_move ko_board 2 0).2.ko_point = some (1, 0) ∧
          is_valid_move (play_move ko_board 2 0).2 1 0 = false ∧
          (play_move (play_move ko_board 2 0).2 0 2).1 = true ∧
          (play_move (play_move ko_board 2 0).2 0 2).2.ko_point = none ∧
          (play_move (play_move ko_board 2 0).2 (-1) (-1)).2.ko_point =
            none)) :=
  ⟨by decide, by decide, c5_ko_rule ko_board 2 0 (by decide) (by decide)⟩

/-!
## C6: the suicide rule
-/

/-- A stone's flood fill finds an empty point iff the group's liberty set is
nonempty. -/
theorem has_liberties_iff {B : GoBoard} {x y : ℤ}
    (hob : is_on_board B.size x y) (hcol : gfun B (x, y) ≠ EMPTY) :
    has_liberties_in_copy B x y = true ↔ (get_liberties B x y).Nonempty := by
  unfold has_liberties_in_copy
  rw [if_neg hcol]
  rw [decide_eq_true_eq]
  unfold get_liberties
  rw [if_neg (by push_neg; exact ⟨hob, hcol⟩)]
  rw [Finset.filter_nonempty_iff]
  rw [← get_group_of_stone hob hcol]
  constructor
  · rintro ⟨s, hs, r, hr, hre⟩
    exact ⟨r, adjacent_mem_cells hr, hre, s, hs, hr⟩
  · rintro ⟨r, hrc, hre, s, hs, hr⟩
    exact ⟨s, hs, r, hr, hre⟩

/-- A 2×2 state where `(0, 0)` is a fully self-surrounded point for White:
no capture, so the move is suicide. -/
def c6_board_a : GoBoard := ⟨2, {(0, 1), (1, 0)}, ∅, 2, none, [], 0, 0, 0⟩

/-- The same 2×2 shape with an extra white stone at `(1, 1)`: now White at
`(0, 0)` captures the two black stones, so the same point is legal. -/
def c6_board_b : GoBoard :=
  ⟨2, {(0, 1), (1, 0)}, {(1, 1)}, 2, none, [], 0, 0, 0⟩

/-- C6: `would_be_suicide(x, y, color)` is false exactly when, after placing
the stone on a scratch copy of the grid, the placed stone's group has a
liberty or some directly adjacent opponent group has no liberties (capture
takes precedence over suicide); a fully self-surrounded point with no
capture is rejected by `is_valid_move`, and the same point is accepted once
the placement captures at least one opponent stone. -/
theorem c6_suicide_rule :
    (∀ (b : GoBoard) (x y : ℤ) (c : ℕ), is_on_board b.size x y →
      gfun b (x, y) = EMPTY → (c = BLACK ∨ c = WHITE) →
      (would_be_suicide b x y c = false ↔
        ((get_liberties (set_cell b (x, y) c) x y).Nonempty ∨
          ∃ q ∈ get_adjacent_points b.size x y,
            gfun (set_cell b (x, y) c) q = opponent_of c ∧
              get_liberties (set_cell b (x, y) c) q.1 q.2 = ∅))) ∧
      (would_be_suicide c6_board_a 0 0 WHITE = true ∧
        is_valid_move c6_board_a 0 0 = false ∧
        would_be_suicide c6_board_b 0 0 WHITE = false ∧
        is_valid_move c6_board_b 0 0 = true) := by
  constructor
  · intro b x y c hob hemp hc
    have hbcsz : (set_cell b (x, y) c).size = b.size := set_cell_size b (x, y) c
    have hxyc : gfun (set_cell b (x, y) c) (x, y) = c := by
      rw [gfun_set_cell b (x, y) c (Or.inr hc), if_pos rfl]
    have hcne : gfun (set_cell b (x, y) c) (x, y) ≠ EMPTY := by
      rw [hxyc]
      exact opp_ne_empty hc
    have hob' : is_on_board (set_cell b (x, y) c).size x y := by
      rw [hbcsz]
      exact hob
    simp only [would_be_suicide]
    by_cases hlib : has_liberties_in_copy (set_cell b (x, y) c) x y = true
    · rw [if_pos hlib]
      constructor
      · intro _
        exact Or.inl ((has_liberties_iff hob' hcne).1 hlib)
      · intro _
        rfl
    · rw [if_neg hlib]
      have hlibf : ¬ (get_liberties (set_cell b (x, y) c) x y).Nonempty :=
        fun h => hlib ((has_liberties_iff hob' hcne).2 h)
      by_cases hany : ((get_adjacent_points b.size x y).any
          (fun q => decide (gfun (set_cell b (x, y) c) q =
            (if c = BLACK then WHITE else BLACK)) &&
              ! has_liberties_in_copy (set_cell b (x, y) c) q.1 q.2)) = true
      · rw [if_pos hany]
        constructor
        · intro _
          right
          obtain ⟨q, hq, hpq⟩ := List.any_eq_true.1 hany
          rw [Bool.and_eq_true, decide_eq_true_eq, Bool.not_eq_true'] at hpq
          obtain ⟨hcolq, hlq⟩ := hpq
          have hqcells : q ∈ cells b.size := adjacent_mem_cells hq
          have hqob : is_on_board (set_cell b (x, y) c).size q.1 q.2 := by
            rw [hbcsz]
            exact mem_cells.1 hqcells
          have hqne : gfun (set_cell b (x, y) c) (q.1, q.2) ≠ EMPTY := by
            show gfun (set_cell b (x, y) c) q ≠ EMPTY
            rw [hcolq]
            exact opp_ne_empty (opponent_of_color c)
          refine ⟨q, hq, hcolq, ?_⟩
          rw [← Finset.not_nonempty_iff_eq_empty]
          intro hne
          have := (has_liberties_iff hqob hqne).2 hne
          rw [this] at hlq
          exact absurd hlq (by decide)
        · intro _
          rfl
      · rw [if_neg hany]
        constructor
        · intro h
          exact absurd h (by decide)
        · rintro (h | ⟨q, hq, hcolq, hlq⟩)
          · exact absurd h hlibf
          · exfalso
            apply hany
            rw [List.any_eq_true]
            refine ⟨q, hq, ?_⟩
            rw [Bool.and_eq_true, decide_eq_true_eq, Bool.not_eq_true']
            refine ⟨hcolq, ?_⟩
            have hqcells : q ∈ cells b.size := adjacent_mem_cells hq
            have hqob : is_on_board (set_cell b (x, y) c).size q.1 q.2 := by
              rw [hbcsz]
              exact mem_cells.1 hqcells
            have hqne : gfun (set_cell b (x, y) c) (q.1, q.2) ≠ EMPTY := by
              show gfun (set_cell b (x, y) c) q ≠ EMPTY
              rw [hcolq]
              exact opp_ne_empty (opponent_of_color c)
            rw [Bool.eq_false_iff]
            intro htrue
            have := (has_liberties_iff hqob hqne).1 htrue
            rw [hlq] at this
            exact Finset.not_nonempty_empty this
  · exact ⟨by decide, by decide, by decide, by decide⟩

/-!
## C7: the game-over conditions
-/

/-- The claimed characterization of `is_game_over`, following the spec's
words: two passes, or the dominance heuristic (board at least one third
covered, one color holding more than 60% of the placed stones whose
estimated territory exceeds the opponent's by more than 50%), or more moves
than `size² / 2`.  The fractional comparisons are written exactly. -/
def game_over_claim (b : GoBoard) : Prop :=
  2 ≤ b.pass_count ∨
    (b.size * b.size ≤ 3 * (count_stones_black b + count_stones_white b) ∧
      ((3 * (count_stones_black b + count_stones_white b) <
            5 * count_stones_black b ∧
          3 * (count_territory b).2 < 2 * (count_territory b).1) ∨
        (3 * (count_stones_black b + count_stones_white b) <
            5 * count_stones_white b ∧
          3 * (count_territory b).1 < 2 * (count_territory b).2))) ∨
    b.size * b.size < 2 * b.move_history.length

instance (b : GoBoard) : Decidable (game_over_claim b) := by
  unfold game_over_claim
  infer_instance

/-- The amended characterization: the dominance heuristic additionally
requires both colors to have at least one stone on the board. -/
def game_over_code (b : GoBoard) : Prop :=
  2 ≤ b.pass_count ∨
    (b.size * b.size ≤ 3 * (count_stones_black b + count_stones_white b) ∧
      0 < count_stones_black b ∧ 0 < count_stones_white b ∧
      ((3 * (count_stones_black b + count_stones_white b) <
            5 * count_stones_black b ∧
          3 * (count_territory b).2 < 2 * (count_territory b).1) ∨
        (3 * (count_stones_black b + count_stones_white b) <
            5 * count_stones_white b ∧
          3 * (count_territory b).1 < 2 * (count_territory b).2))) ∨
    b.size * b.size < 2 * b.move_history.length

instance (b : GoBoard) : Decidable (game_over_code b) := by
  unfold game_over_code
  infer_instance

/-- A 3×3 state with three black stones, no white stones, and positive
black territory: the claimed disjunction holds but the code's guard
`black_count > 0 and white_count > 0` makes `is_game_over` false. -/
def c7_board : GoBoard := ⟨3, {(0, 0), (0, 1), (0, 2)}, ∅, 1, none, [], 0, 0, 0⟩

/-- C7 (counterexample): the claimed characterization fails on a board
where one color has all the stones. -/
theorem c7_counterexample :
    ¬(is_game_over c7_board = true ↔ game_over_claim c7_board) := by
  decide

/-- C7 (amended): `is_game_over` is true exactly when two passes have
occurred, or the dominance heuristic fires (with both colors on the board),
or the move count exceeds `size² / 2`; in particular two passes always end
the game, and a fresh empty 9×9 board is not game-over. -/
theorem c7_game_over_amended :
    (∀ b : GoBoard, is_game_over b = true ↔ game_over_code b) ∧
      (∀ b : GoBoard, 2 ≤ b.pass_count → is_game_over b = true) ∧
      is_game_over (init_board 9) = false := by
  refine ⟨?_, ?_, by decide⟩
  · intro b
    unfold game_over_code
    simp only [is_game_over]
    split_ifs with h1 h2 h3
    · simp only [h1, true_or]
    · constructor
      · intro _
        right
        left
        obtain ⟨a1, ⟨a2, a3⟩, a4, a5⟩ := h2
        exact ⟨a1, a2, a3, a5⟩
      · intro _
        rfl
    · constructor
      · intro _
        right
        right
        omega
      · intro _
        rfl
    · constructor
      · intro h
        exact absurd h (by decide)
      · rintro (h | ⟨a1, a2, a3, a5⟩ | h)
        · exact absurd h h1
        · exfalso
          apply h2
          refine ⟨a1, ⟨a2, a3⟩, ?_, a5⟩
          rcases a5 with ⟨a6, -⟩ | ⟨a6, -⟩
          · exact Or.inl a6
          · exact Or.inr a6
        · exfalso
          apply h3
          omega
  · intro b h
    simp only [is_game_over]
    rw [if_pos h]

/-!
## C8: territory counting
-/

theorem mem_cells_list {n : ℕ} {p : Pos} : p ∈ cells_list n ↔ p ∈ cells n := by
  unfold cells_list
  rw [mem_cells]
  constructor
  · intro h
    obtain ⟨a, ha, hq⟩ := List.mem_flatMap.1 h
    obtain ⟨bb, hb, rfl⟩ := List.mem_map.1 hq
    rw [List.mem_range] at ha hb
    refine ⟨Int.ofNat_nonneg a, ?_, Int.ofNat_nonneg bb, ?_⟩ <;>
      simp [Int.ofNat_eq_coe] <;> omega
  · rintro ⟨h1, h2, h3, h4⟩
    refine List.mem_flatMap.2 ⟨p.1.toNat, List.mem_range.2 (by omega),
      List.mem_map.2 ⟨p.2.toNat, List.mem_range.2 (by omega), ?_⟩⟩
    simp only [Prod.ext_iff]
    constructor <;> simp <;> omega

theorem mem_empty_region_self (b : GoBoard) (p : Pos) :
    p ∈ empty_region b p :=
  mem_comp_self _ _ _

theorem empty_region_members {b : GoBoard} {p q : Pos}
    (hp : p ∈ cells b.size) (hpe : gfun b p = EMPTY)
    (hq : q ∈ empty_region b p) : q ∈ cells b.size ∧ gfun b q = EMPTY := by
  rcases comp_mem_pred hq with rfl | ⟨h1, h2⟩
  · exact ⟨hp, hpe⟩
  · exact ⟨h1, of_decide_eq_true h2⟩

theorem empty_region_eq_of_mem {b : GoBoard} {p q : Pos}
    (hp : p ∈ cells b.size) (hpe : gfun b p = EMPTY)
    (hq : q ∈ empty_region b p) : empty_region b q = empty_region b p :=
  comp_eq_of_mem hp (decide_eq_true hpe) hq

/-- The union of the maximal empty regions through the empty points of a
list. -/
def regions_of (b : GoBoard) : List Pos → Finset Pos
  | [] => ∅
  | p :: rest =>
    (if gfun b p = EMPTY then empty_region b p else ∅) ∪ regions_of b rest

theorem mem_regions_of {b : GoBoard} {L : List Pos} {q : Pos} :
    q ∈ regions_of b L ↔
      ∃ p ∈ L, gfun b p = EMPTY ∧ q ∈ empty_region b p := by
  induction L with
  | nil => simp [regions_of]
  | cons p rest ih =>
    simp only [regions_of, Finset.mem_union, ih, List.mem_cons]
    constructor
    · rintro (hq | ⟨s, hs, h1, h2⟩)
      · split_ifs at hq with h
        · exact ⟨p, Or.inl rfl, h, hq⟩
        · exact absurd hq (Finset.not_mem_empty q)
      · exact ⟨s, Or.inr hs, h1, h2⟩
    · rintro ⟨s, hs, h1, h2⟩
      rcases hs with heq | hs'
      · subst heq
        left
        rw [if_pos h1]
        exact h2
      · exact Or.inr ⟨s, hs', h1, h2⟩

theorem filter_union_region {b : GoBoard} {V R : Finset Pos}
    (hdisj : Disjoint V R) (hRall : ∀ q ∈ R, empty_region b q = R) (c : ℕ) :
    ((V ∪ R).filter
        (fun q => region_border b (empty_region b q) = {c})).card =
      (V.filter (fun q => region_border b (empty_region b q) = {c})).card +
        (if region_border b R = {c} then R.card else 0) := by
  rw [Finset.filter_union,
    Finset.card_union_of_disjoint (Finset.disjoint_filter_filter hdisj)]
  congr 1
  split_ifs with hb
  · rw [Finset.filter_true_of_mem]
    intro q hq
    rw [hRall q hq, hb]
  · rw [Finset.filter_false_of_mem, Finset.card_empty]
    intro q hq
    rw [hRall q hq]
    exact hb

/-- Invariant of the outer loop of `count_territory`: the visited set is a
union of complete empty regions, and each territory counter counts the
cells of the visited regions whose border is the one color. -/
theorem territory_fold_spec (b : GoBoard) :
    ∀ (L : List Pos) (V : Finset Pos) (tB tW : ℕ),
      (∀ p ∈ L, p ∈ cells b.size) →
      (∀ q ∈ V, gfun b q = EMPTY ∧ q ∈ cells b.size ∧
        empty_region b q ⊆ V) →
      tB = (V.filter
        (fun q => region_border b (empty_region b q) = {BLACK})).card →
      tW = (V.filter
        (fun q => region_border b (empty_region b q) = {WHITE})).card →
      (L.foldl (territory_step b) (V, tB, tW)).1 = V ∪ regions_of b L ∧
        (L.foldl (territory_step b) (V, tB, tW)).2.1 =
          ((V ∪ regions_of b L).filter
            (fun q => region_border b (empty_region b q) = {BLACK})).card ∧
        (L.foldl (territory_step b) (V, tB, tW)).2.2 =
          ((V ∪ regions_of b L).filter
            (fun q => region_border b (empty_region b q) = {WHITE})).card := by
  intro L
  induction L with
  | nil =>
    intro V tB tW hL hV htB htW
    refine ⟨?_, ?_, ?_⟩ <;>
      simp only [List.foldl_nil, regions_of, Finset.union_empty]
    · exact htB
    · exact htW
  | cons p rest ih =>
    intro V tB tW hL hV htB htW
    have hp_cells : p ∈ cells b.size := hL p (List.mem_cons_self p rest)
    have hLrest : ∀ r ∈ rest, r ∈ cells b.size :=
      fun r hr => hL r (List.mem_cons_of_mem p hr)
    rw [List.foldl_cons]
    by_cases hpe : gfun b p = EMPTY
    · by_cases hpV : p ∈ V
      · -- region already visited
        have hstep : territory_step b (V, tB, tW) p = (V, tB, tW) := by
          simp only [territory_step]
          rw [if_neg]
          rintro ⟨-, h⟩
          exact h hpV
        have habs : V ∪ regions_of b (p :: rest) = V ∪ regions_of b rest := by
          simp only [regions_of]
          rw [if_pos hpe, ← Finset.union_assoc,
            Finset.union_eq_left.2 (hV p hpV).2.2]
        rw [hstep, habs]
        exact ih V tB tW hLrest hV htB htW
      · -- a new region is flooded
        have hdisj : Disjoint V (empty_region b p) := by
          rw [Finset.disjoint_right]
          intro a ha haV
          obtain ⟨-, -, hsub⟩ := hV a haV
          rw [empty_region_eq_of_mem hp_cells hpe ha] at hsub
          exact hpV (hsub (mem_empty_region_self b p))
        have hRall : ∀ q ∈ empty_region b p,
            empty_region b q = empty_region b p :=
          fun q hq => empty_region_eq_of_mem hp_cells hpe hq
        have hV' : ∀ q ∈ V ∪ empty_region b p, gfun b q = EMPTY ∧
            q ∈ cells b.size ∧ empty_region b q ⊆ V ∪ empty_region b p := by
          intro q hq
          rcases Finset.mem_union.1 hq with hq' | hq'
          · obtain ⟨h1, h2, h3⟩ := hV q hq'
            exact ⟨h1, h2, h3.trans Finset.subset_union_left⟩
          · obtain ⟨h2, h1⟩ := empty_region_members hp_cells hpe hq'
            rw [hRall q hq']
            exact ⟨h1, h2, Finset.subset_union_right⟩
        have habs : V ∪ regions_of b (p :: rest) =
            (V ∪ empty_region b p) ∪ regions_of b rest := by
          simp only [regions_of]
          rw [if_pos hpe, Finset.union_assoc]
        have hcB := filter_union_region hdisj hRall BLACK
        have hcW := filter_union_region hdisj hRall WHITE
        have hBW : ({BLACK} : Finset ℕ) ≠ {WHITE} := by decide
        simp only [territory_step]
        rw [if_pos ⟨hpe, hpV⟩]
        by_cases hbB : region_border b (empty_region b p) = {BLACK}
        · rw [if_pos hbB, habs]
          refine ih (V ∪ empty_region b p) _ _ hLrest hV' ?_ ?_
          · rw [hcB, if_pos hbB, htB]
          · rw [hcW, if_neg (hbB ▸ hBW), htW, Nat.add_zero]
        · rw [if_neg hbB]
          by_cases hbW : region_border b (empty_region b p) = {WHITE}
          · rw [if_pos hbW, habs]
            refine ih (V ∪ empty_region b p) _ _ hLrest hV' ?_ ?_
            · rw [hcB, if_neg hbB, htB, Nat.add_zero]
            · rw [hcW, if_pos hbW, htW]
          · rw [if_neg hbW, habs]
            refine ih (V ∪ empty_region b p) _ _ hLrest hV' ?_ ?_
            · rw [hcB, if_neg hbB, htB, Nat.add_zero]
            · rw [hcW, if_neg hbW, htW, Nat.add_zero]
    · -- a stone: nothing happens
      have hstep : territory_step b (V, tB, tW) p = (V, tB, tW) := by
        simp only [territory_step]
        rw [if_neg]
        rintro ⟨h, -⟩
        exact hpe h
      have habs : V ∪ regions_of b (p :: rest) = V ∪ regions_of b rest := by
        simp only [regions_of]
        rw [if_neg hpe, Finset.empty_union]
      rw [hstep, habs]
      exact ih V tB tW hLrest hV htB htW

theorem regions_of_cells_list (b : GoBoard) :
    regions_of b (cells_list b.size) =
      (cells b.size).filter (fun q => gfun b q = EMPTY) := by
  ext q
  rw [mem_regions_of, Finset.mem_filter]
  constructor
  · rintro ⟨p, hp, h1, h2⟩
    have hpc : p ∈ cells b.size := mem_cells_list.1 hp
    obtain ⟨hc, he⟩ := empty_region_members hpc h1 h2
    exact ⟨hc, he⟩
  · rintro ⟨hc, he⟩
    exact ⟨q, mem_cells_list.2 hc, he, mem_empty_region_self b q⟩

/-- C8: `count_territory` credits each maximal connected empty region
entirely to a color exactly when every stone bordering the region has that
color: the total for each color is the number of empty cells whose region's
border is exactly that color.  Mixed-border and unbordered regions are
counted for neither color. -/
theorem c8_territory_characterization (b : GoBoard) :
    (count_territory b).1 =
      ((cells b.size).filter (fun q => gfun b q = EMPTY ∧
        region_border b (empty_region b q) = {BLACK})).card ∧
      (count_territory b).2 =
        ((cells b.size).filter (fun q => gfun b q = EMPTY ∧
          region_border b (empty_region b q) = {WHITE})).card := by
  have hL : ∀ p ∈ cells_list b.size, p ∈ cells b.size :=
    fun p hp => mem_cells_list.1 hp
  have hsp := territory_fold_spec b (cells_list b.size) ∅ 0 0 hL
    (fun q hq => absurd hq (Finset.not_mem_empty q))
    (by rw [Finset.filter_empty, Finset.card_empty])
    (by rw [Finset.filter_empty, Finset.card_empty])
  obtain ⟨-, h1, h2⟩ := hsp
  unfold count_territory
  rw [h1, h2, Finset.empty_union, regions_of_cells_list, Finset.filter_filter,
    Finset.filter_filter]
  exact ⟨rfl, rfl⟩

/-!
## C10: the queries do not modify the state

Each read-only query is embedded a second time in explicit state-passing
style (`...S`), threading the `GoBoard` state through its sub-calls exactly
as the source method reads `self`; since none of the methods assigns to any
field of `self` (`would_be_suicide` simulates on a scratch copy of the grid
built by `set_cell`), each returns its input state and its pure value.
-/

/-- `get_group` with explicit state. -/
def get_groupS (b : GoBoard) (x y : ℤ) : Finset Pos × GoBoard :=
  (get_group b x y, b)

/-- `would_be_suicide` with explicit state: the simulation runs on the
scratch copy `set_cell b (x, y) c`, never on `b`. -/
def would_be_suicideS (b : GoBoard) (x y : ℤ) (c : ℕ) : Bool × GoBoard :=
  (would_be_suicide b x y c, b)

/-- `is_ko` with explicit state. -/
def is_koS (b : GoBoard) (x y : ℤ) : Bool × GoBoard := (is_ko b x y, b)

/-- `count_stones` with explicit state. -/
def count_stonesS (b : GoBoard) : (ℕ × ℕ) × GoBoard :=
  ((count_stones_black b, count_stones_white b), b)

/-- `count_territory` with explicit state (its visited set and counters are
locals). -/
def count_territoryS (b : GoBoard) : (ℕ × ℕ) × GoBoard :=
  (count_territory b, b)

/-- `get_liberties` with explicit state, threading the `get_group` call. -/
def get_libertiesS (b : GoBoard) (x y : ℤ) : Finset Pos × GoBoard :=
  if ¬ is_on_board b.size x y ∨ gfun b (x, y) = EMPTY then (∅, b)
  else
    ((cells (get_groupS b x y).2.size).filter
      (fun q => gfun (get_groupS b x y).2 q = EMPTY ∧
        ∃ s ∈ (get_groupS b x y).1,
          q ∈ get_adjacent_points (get_groupS b x y).2.size s.1 s.2),
      (get_groupS b x y).2)

/-- `is_valid_move` with explicit state, threading the `is_ko` and
`would_be_suicide` calls. -/
def is_valid_moveS (b : GoBoard) (x y : ℤ) : Bool × GoBoard :=
  if ¬ is_on_board b.size x y then (false, b)
  else if gfun b (x, y) ≠ EMPTY then (false, b)
  else if (is_koS b x y).1 then (false, (is_koS b x y).2)
  else if (would_be_suicideS (is_koS b x y).2 x y
      (is_koS b x y).2.current_player).1 then
    (false, (would_be_suicideS (is_koS b x y).2 x y
      (is_koS b x y).2.current_player).2)
  else (true, (would_be_suicideS (is_koS b x y).2 x y
    (is_koS b x y).2.current_player).2)

/-- `get_valid_moves` with explicit state, threading the state through each
`is_valid_move` call of its double loop. -/
def get_valid_movesS (b : GoBoard) : List Pos × GoBoard :=
  (cells_list b.size).foldl
    (fun st p =>
      (if (is_valid_moveS st.2 p.1 p.2).1 then st.1 ++ [p] else st.1,
        (is_valid_moveS st.2 p.1 p.2).2))
    ([], b)

/-- `is_game_over` with explicit state, threading `count_stones` and
`count_territory`. -/
def is_game_overS (b : GoBoard) : Bool × GoBoard :=
  if 2 ≤ b.pass_count then (true, b)
  else
    if (count_territoryS (count_stonesS b).2).2.size *
          (count_territoryS (count_stonesS b).2).2.size ≤
        3 * ((count_stonesS b).1.1 + (count_stonesS b).1.2) ∧
        (0 < (count_stonesS b).1.1 ∧ 0 < (count_stonesS b).1.2) ∧
        (3 * ((count_stonesS b).1.1 + (count_stonesS b).1.2) <
            5 * (count_stonesS b).1.1 ∨
          3 * ((count_stonesS b).1.1 + (count_stonesS b).1.2) <
            5 * (count_stonesS b).1.2) ∧
        ((3 * ((count_stonesS b).1.1 + (count_stonesS b).1.2) <
              5 * (count_stonesS b).1.1 ∧
            3 * (count_territoryS (count_stonesS b).2).1.2 <
              2 * (count_territoryS (count_stonesS b).2).1.1) ∨
          (3 * ((count_stonesS b).1.1 + (count_stonesS b).1.2) <
              5 * (count_stonesS b).1.2 ∧
            3 * (count_territoryS (count_stonesS b).2).1.1 <
              2 * (count_territoryS (count_stonesS b).2).1.2)) then
      (true, (count_territoryS (count_stonesS b).2).2)
    else if (count_territoryS (count_stonesS b).2).2.size *
          (count_territoryS (count_stonesS b).2).2.size / 2 <
        (count_territoryS (count_stonesS b).2).2.move_history.length then
      (true, (count_territoryS (count_stonesS b).2).2)
    else (false, (count_territoryS (count_stonesS b).2).2)

theorem is_valid_moveS_eq (b : GoBoard) (x y : ℤ) :
    is_valid_moveS b x y = (is_valid_move b x y, b) := by
  simp only [is_valid_moveS, is_valid_move, is_koS, would_be_suicideS]
  split_ifs <;> rfl

theorem get_valid_movesS_loop (b : GoBoard) :
    ∀ (L : List Pos) (acc : List Pos),
      (L.foldl
        (fun st p =>
          (if (is_valid_moveS st.2 p.1 p.2).1 then st.1 ++ [p] else st.1,
            (is_valid_moveS st.2 p.1 p.2).2))
        (acc, b)) =
      (acc ++ L.filter (fun p => is_valid_move b p.1 p.2), b) := by
  intro L
  induction L with
  | nil =>
    intro acc
    simp
  | cons p rest ih =>
    intro acc
    rw [List.foldl_cons, List.filter_cons]
    have hS := is_valid_moveS_eq b p.1 p.2
    by_cases hv : is_valid_move b p.1 p.2 = true
    · have h1 : (is_valid_moveS b p.1 p.2).1 = true := by rw [hS]; exact hv
      simp only [h1, if_true, hS, hv]
      rw [ih (acc ++ [p]), List.append_assoc]
      rfl
    · have hvf : is_valid_move b p.1 p.2 = false := by
        revert hv
        cases is_valid_move b p.1 p.2 <;> simp
      have h1 : (is_valid_moveS b p.1 p.2).1 = false := by rw [hS]; exact hvf
      simp only [h1, hS, hvf]
      rw [if_neg (by simp), if_neg (by simp)]
      exact ih acc

theorem get_valid_movesS_eq (b : GoBoard) :
    get_valid_movesS b = (get_valid_moves b, b) := by
  unfold get_valid_movesS get_valid_moves
  rw [get_valid_movesS_loop b (cells_list b.size) []]
  rfl

theorem get_libertiesS_eq (b : GoBoard) (x y : ℤ) :
    get_libertiesS b x y = (get_liberties b x y, b) := by
  unfold get_libertiesS get_liberties get_groupS
  split_ifs <;> rfl

theorem is_game_overS_eq (b : GoBoard) :
    is_game_overS b = (is_game_over b, b) := by
  simp only [is_game_overS, is_game_over, count_stonesS, count_territoryS]
  split_ifs <;> rfl

/-- C10: the legality and scoring queries leave every component of the
board state unchanged and return their pure values: threading the state
through each query in explicit state-passing style returns the input state
itself (and `would_be_suicide` simulates only on a scratch copy of the
grid). -/
theorem c10_queries_pure (b : GoBoard) (x y : ℤ) (c : ℕ) :
    is_valid_moveS b x y = (is_valid_move b x y, b) ∧
      get_valid_movesS b = (get_valid_moves b, b) ∧
      would_be_suicideS b x y c = (would_be_suicide b x y c, b) ∧
      get_groupS b x y = (get_group b x y, b) ∧
      get_libertiesS b x y = (get_liberties b x y, b) ∧
      count_stonesS b = ((count_stones_black b, count_stones_white b), b) ∧
      count_territoryS b = (count_territory b, b) ∧
      is_game_overS b = (is_game_over b, b) :=
  ⟨is_valid_moveS_eq b x y, get_valid_movesS_eq b, rfl, rfl,
    get_libertiesS_eq b x y, rfl, rfl, is_game_overS_eq b⟩

/-!
## The minimax agent (`agents.py`, class `MinimaxAgent`)

Python float scores are modelled by `Score`: the rationals extended with
`float('-inf') = ⊥` and `float('inf') = ⊤`.  The evaluator
(`self.evaluator.evaluate`) is an arbitrary function `GoBoard → ℚ`, the
search depth `self.search_depth` a natural number.  The recursion of
`_max_value`/`_min_value` is well-founded on `search_depth - depth`
because every recursive call — including the forced-pass branch — is made
at `depth + 1` behind the guard `depth >= self.search_depth`.
-/

/-- Python float scores: `ℚ` with both infinities. -/
abbrev Score : Type := WithBot (WithTop ℚ)

/-- A finite float value. -/
def val (q : ℚ) : Score := ((q : WithTop ℚ) : Score)

mutual

/-- `_max_value`. -/
def max_value (ev : GoBoard → ℚ) (sd : ℕ) (b : GoBoard) (depth : ℕ)
    (α β : Score) : Score :=
  if hleaf : is_game_over b = true ∨ sd ≤ depth then val (ev b)
  else if get_valid_moves b = [] then
    min_value ev sd (play_move b (-1) (-1)).2 (depth + 1) α β
  else
    max_loop ev sd b depth (lt_of_not_le fun hh => hleaf (Or.inr hh))
      (get_valid_moves b) ⊥ α β
termination_by (sd - depth, 1, 0)

/-- The move loop of `_max_value`: `best = max(best, score)`,
`alpha = max(alpha, best)`, break when `beta <= alpha`. -/
def max_loop (ev : GoBoard → ℚ) (sd : ℕ) (b : GoBoard) (depth : ℕ)
    (h : depth < sd) (L : List Pos) (best α β : Score) : Score :=
  match L with
  | [] => best
  | m :: ms =>
    if β ≤ max α (max best
        (min_value ev sd (play_move b m.1 m.2).2 (depth + 1) α β)) then
      max best (min_value ev sd (play_move b m.1 m.2).2 (depth + 1) α β)
    else
      max_loop ev sd b depth h ms
        (max best (min_value ev sd (play_move b m.1 m.2).2 (depth + 1) α β))
        (max α (max best
          (min_value ev sd (play_move b m.1 m.2).2 (depth + 1) α β)))
        β
termination_by (sd - depth, 0, L.length)

/-- `_min_value`. -/
def min_value (ev : GoBoard → ℚ) (sd : ℕ) (b : GoBoard) (depth : ℕ)
    (α β : Score) : Score :=
  if hleaf : is_game_over b = true ∨ sd ≤ depth then val (ev b)
  else if get_valid_moves b = [] then
    max_value ev sd (play_move b (-1) (-1)).2 (depth + 1) α β
  else
    min_loop ev sd b depth (lt_of_not_le fun hh => hleaf (Or.inr hh))
      (get_valid_moves b) ⊤ α β
termination_by (sd - depth, 1, 0)

/-- The move loop of `_min_value`: `best = min(best, score)`,
`beta = min(beta, best)`, break when `beta <= alpha`. -/
def min_loop (ev : GoBoard → ℚ) (sd : ℕ) (b : GoBoard) (depth : ℕ)
    (h : depth < sd) (L : List Pos) (best α β : Score) : Score :=
  match L with
  | [] => best
  | m :: ms =>
    if min β (min best
        (max_value ev sd (play_move b m.1 m.2).2 (depth + 1) α β)) ≤ α then
      min best (max_value ev sd (play_move b m.1 m.2).2 (depth + 1) α β)
    else
      min_loop ev sd b depth h ms
        (min best (max_value ev sd (play_move b m.1 m.2).2 (depth + 1) α β))
        α
        (min β (min best
          (max_value ev sd (play_move b m.1 m.2).2 (depth + 1) α β)))
termination_by (sd - depth, 0, L.length)

end

mutual

/-- Exhaustive (unpruned) minimax with the same structure, move order and
depth accounting as `_max_value`, with the alpha-beta pruning removed. -/
def max_plain (ev : GoBoard → ℚ) (sd : ℕ) (b : GoBoard) (depth : ℕ) : Score :=
  if hleaf : is_game_over b = true ∨ sd ≤ depth then val (ev b)
  else if get_valid_moves b = [] then
    min_plain ev sd (play_move b (-1) (-1)).2 (depth + 1)
  else
    max_plain_loop ev sd b depth (lt_of_not_le fun hh => hleaf (Or.inr hh))
      (get_valid_moves b) ⊥
termination_by (sd - depth, 1, 0)

/-- The unpruned move loop of `max_plain`. -/
def max_plain_loop (ev : GoBoard → ℚ) (sd : ℕ) (b : GoBoard) (depth : ℕ)
    (h : depth < sd) (L : List Pos) (best : Score) : Score :=
  match L with
  | [] => best
  | m :: ms =>
    max_plain_loop ev sd b depth h ms
      (max best (min_plain ev sd (play_move b m.1 m.2).2 (depth + 1)))
termination_by (sd - depth, 0, L.length)

/-- Exhaustive (unpruned) counterpart of `_min_value`. -/
def min_plain (ev : GoBoard → ℚ) (sd : ℕ) (b : GoBoard) (depth : ℕ) : Score :=
  if hleaf : is_game_over b = true ∨ sd ≤ depth then val (ev b)
  else if get_valid_moves b = [] then
    max_plain ev sd (play_move b (-1) (-1)).2 (depth + 1)
  else
    min_plain_loop ev sd b depth (lt_of_not_le fun hh => hleaf (Or.inr hh))
      (get_valid_moves b) ⊤
termination_by (sd - depth, 1, 0)

/-- The unpruned move loop of `min_plain`. -/
def min_plain_loop (ev : GoBoard → ℚ) (sd : ℕ) (b : GoBoard) (depth : ℕ)
    (h : depth < sd) (L : List Pos) (best : Score) : Score :=
  match L with
  | [] => best
  | m :: ms =>
    min_plain_loop ev sd b depth h ms
      (min best (max_plain ev sd (play_move b m.1 m.2).2 (depth + 1)))
termination_by (sd - depth, 0, L.length)

end

/-- The root loop of `_get_move`: each move is scored by `_min_value` at
depth `1` with the full window `(-inf, inf)`, and the best move is the
first one whose score is strictly greater. -/
def root_loop_ab (ev : GoBoard → ℚ) (sd : ℕ) (b : GoBoard) :
    List Pos → Score → Option Pos → Option Pos
  | [], _, bm => bm
  | m :: ms, best, bm =>
    if best < min_value ev sd (play_move b m.1 m.2).2 1 ⊥ ⊤ then
      root_loop_ab ev sd b ms
        (min_value ev sd (play_move b m.1 m.2).2 1 ⊥ ⊤) (some m)
    else root_loop_ab ev sd b ms best bm

/-- `_get_move`: `none` when it is not the agent's turn, pass when there is
no valid move, otherwise the alpha-beta root loop over the (shuffled) move
order, with `random.choice` modelled by the `choice` parameter (that branch
is only reached when no score beat `-inf`). -/
def get_move_ab (ev : GoBoard → ℚ) (sd : ℕ) (color : ℕ)
    (choice : List Pos → Pos) (b : GoBoard) (order : List Pos) : Option Pos :=
  if b.current_player ≠ color then none
  else if order = [] then some ((-1 : ℤ), (-1 : ℤ))
  else
    match root_loop_ab ev sd b order ⊥ none with
    | none => some (choice order)
    | some m => some m

/-- The root loop with exhaustive minimax scores. -/
def root_loop_plain (ev : GoBoard → ℚ) (sd : ℕ) (b : GoBoard) :
    List Pos → Score → Option Pos → Option Pos
  | [], _, bm => bm
  | m :: ms, best, bm =>
    if best < min_plain ev sd (play_move b m.1 m.2).2 1 then
      root_loop_plain ev sd b ms
        (min_plain ev sd (play_move b m.1 m.2).2 1) (some m)
    else root_loop_plain ev sd b ms best bm

/-- `_get_move` with exhaustive minimax instead of alpha-beta search. -/
def get_move_plain (ev : GoBoard → ℚ) (sd : ℕ) (color : ℕ)
    (choice : List Pos → Pos) (b : GoBoard) (order : List Pos) : Option Pos :=
  if b.current_player ≠ color then none
  else if order = [] then some ((-1 : ℤ), (-1 : ℤ))
  else
    match root_loop_plain ev sd b order ⊥ none with
    | none => some (choice order)
    | some m => some m

/-!
## Alpha-beta pruning computes the minimax value (Knuth-Moore invariants)
-/

theorem le_max_loop (ev : GoBoard → ℚ) (sd : ℕ) (b : GoBoard) (depth : ℕ)
    (h : depth < sd) :
    ∀ (L : List Pos) (best α β : Score),
      best ≤ max_loop ev sd b depth h L best α β := by
  intro L
  induction L with
  | nil =>
    intro best α β
    simp only [max_loop]
    exact le_refl best
  | cons m ms ih =>
    intro best α β
    simp only [max_loop]
    split_ifs
    · exact le_max_left _ _
    · exact le_trans (le_max_left _ _) (ih _ _ _)

theorem min_loop_le (ev : GoBoard → ℚ) (sd : ℕ) (b : GoBoard) (depth : ℕ)
    (h : depth < sd) :
    ∀ (L : List Pos) (best α β : Score),
      min_loop ev sd b depth h L best α β ≤ best := by
  intro L
  induction L with
  | nil =>
    intro best α β
    simp only [min_loop]
    exact le_refl best
  | cons m ms ih =>
    intro best α β
    simp only [min_loop]
    split_ifs
    · exact min_le_left _ _
    · exact le_trans (ih _ _ _) (min_le_left _ _)

theorem max_plain_loop_base (ev : GoBoard → ℚ) (sd : ℕ) (b : GoBoard)
    (depth : ℕ) (h : depth < sd) :
    ∀ (L : List Pos) (best : Score),
      max_plain_loop ev sd b depth h L best =
        max best (max_plain_loop ev sd b depth h L ⊥) := by
  intro L
  induction L with
  | nil =>
    intro best
    simp only [max_plain_loop]
    exact (max_eq_left bot_le).symm
  | cons m ms ih =>
    intro best
    simp only [max_plain_loop]
    rw [ih (max best (min_plain ev sd (play_move b m.1 m.2).2 (depth + 1))),
      ih (max ⊥ (min_plain ev sd (play_move b m.1 m.2).2 (depth + 1))),
      max_eq_right bot_le, max_assoc]

theorem min_plain_loop_base (ev : GoBoard → ℚ) (sd : ℕ) (b : GoBoard)
    (depth : ℕ) (h : depth < sd) :
    ∀ (L : List Pos) (best : Score),
      min_plain_loop ev sd b depth h L best =
        min best (min_plain_loop ev sd b depth h L ⊤) := by
  intro L
  induction L with
  | nil =>
    intro best
    simp only [min_plain_loop]
    exact (min_eq_left le_top).symm
  | cons m ms ih =>
    intro best
    simp only [min_plain_loop]
    rw [ih (min best (max_plain ev sd (play_move b m.1 m.2).2 (depth + 1))),
      ih (min ⊤ (max_plain ev sd (play_move b m.1 m.2).2 (depth + 1))),
      min_eq_right le_top, min_assoc]

theorem clamp_max_base {α β b' M : Score} (hb : b' ≤ α) :
    max α (min β (max b' M)) = max α (min β M) := by
  rcases le_total M b' with hMb | hbM
  · rw [max_eq_left hMb, max_eq_left (le_trans (min_le_right _ _) hb),
      max_eq_left (le_trans (min_le_right β M) (le_trans hMb hb))]
  · rw [max_eq_right hbM]

theorem clamp_min_base {α β b' M : Score} (hb : β ≤ b') :
    max α (min β (min b' M)) = max α (min β M) := by
  rcases le_total b' M with hbM | hMb
  · rw [min_eq_left hbM, min_eq_left hb,
      min_eq_left (le_trans hb hbM)]
  · rw [min_eq_right hMb]

/-- Knuth-Moore invariant for the pruned max loop: clamped to the window,
it agrees with the unpruned loop (given the clamped agreement for every
child value). -/
theorem max_loop_km (ev : GoBoard → ℚ) (sd : ℕ) (b : GoBoard) (depth : ℕ)
    (h : depth < sd)
    (hch : ∀ (m : Pos) (α β : Score), α < β →
      max α (min β (min_value ev sd (play_move b m.1 m.2).2 (depth + 1) α β)) =
        max α (min β (min_plain ev sd (play_move b m.1 m.2).2 (depth + 1)))) :
    ∀ (L : List Pos) (best α β : Score), α < β → best ≤ α →
      max α (min β (max_loop ev sd b depth h L best α β)) =
        max α (min β (max_plain_loop ev sd b depth h L best)) := by
  intro L
  induction L with
  | nil =>
    intro best α β hαβ hba
    simp only [max_loop, max_plain_loop]
  | cons m ms ih =>
    intro best α β hαβ hba
    simp only [max_loop, max_plain_loop]
    set s := min_value ev sd (play_move b m.1 m.2).2 (depth + 1) α β with hs
    set w := min_plain ev sd (play_move b m.1 m.2).2 (depth + 1) with hw
    have hsw : max α (min β s) = max α (min β w) := hch m α β hαβ
    have hmax : max α (max best s) = max α s := by
      rw [← max_assoc, max_eq_left hba]
    split_ifs with hbr
    · -- pruning: β ≤ alpha' = max α s, hence β ≤ s and the move fails high
      rw [hmax] at hbr
      have hsβ : β ≤ s := by
        rcases le_total s α with h1 | h1
        · rw [max_eq_left h1] at hbr
          exact absurd hbr (not_le.2 hαβ)
        · rw [max_eq_right h1] at hbr
          exact hbr
      have hbest : max best s = s :=
        max_eq_right (le_trans hba (le_trans (le_of_lt hαβ) hsβ))
      have hwβ : β ≤ w := by
        have h2 : max α (min β w) = β := by
          rw [← hsw, min_eq_left hsβ, max_eq_right (le_of_lt hαβ)]
        rcases le_total w β with h3 | h3
        · rw [min_eq_right h3] at h2
          rcases le_total w α with h4 | h4
          · rw [max_eq_left h4] at h2
            exact absurd h2 (ne_of_lt hαβ)
          · rw [max_eq_right h4] at h2
            exact le_of_eq h2.symm
        · exact h3
      have hplain : β ≤ max_plain_loop ev sd b depth h ms (max best w) := by
        rw [max_plain_loop_base]
        exact le_trans hwβ (le_trans (le_max_right best w) (le_max_left _ _))
      rw [hbest, min_eq_left hsβ, max_eq_right (le_of_lt hαβ),
        min_eq_left hplain, max_eq_right (le_of_lt hαβ)]
    · rw [hmax] at hbr
      have hlt : max α s < β := not_le.1 hbr
      rcases lt_or_le α s with hαs | hsα
      · -- the move improves alpha strictly: its value is exact
        have hsβ' : s < β := by
          rw [max_eq_right (le_of_lt hαs)] at hlt
          exact hlt
        have hws : w = s := by
          have h2 : max α (min β w) = s := by
            rw [← hsw, min_eq_right (le_of_lt hsβ'),
              max_eq_right (le_of_lt hαs)]
          rcases le_total β w with h4 | h4
          · rw [min_eq_left h4, max_eq_right (le_of_lt hαβ)] at h2
            exact absurd h2 (ne_of_gt hsβ')
          · rw [min_eq_right h4] at h2
            rcases le_total w α with h5 | h5
            · rw [max_eq_left h5] at h2
              exact absurd h2 (ne_of_lt hαs)
            · rw [max_eq_right h5] at h2
              exact h2
        have hbs : max best s = s := max_eq_right (le_trans hba (le_of_lt hαs))
        rw [hws, hbs, max_eq_right (le_of_lt hαs)]
        have hIH := ih s s β hsβ' (le_refl s)
        have hr : s ≤ max_loop ev sd b depth h ms s s β :=
          le_max_loop ev sd b depth h ms s s β
        have hP : s ≤ max_plain_loop ev sd b depth h ms s := by
          rw [max_plain_loop_base]
          exact le_max_left _ _
        rw [max_eq_right (le_min (le_of_lt hsβ') hr),
          max_eq_right (le_min (le_of_lt hsβ') hP)] at hIH
        rw [hIH]
      · -- the move fails low: both sides stay clamped at α
        have hwα : w ≤ α := by
          have h2 : max α (min β w) = α := by
            rw [← hsw, min_eq_right (le_trans hsα (le_of_lt hαβ)),
              max_eq_left hsα]
          have h3 : min β w ≤ α := by
            by_contra hcon
            push_neg at hcon
            rw [max_eq_right (le_of_lt hcon)] at h2
            exact absurd h2.symm (ne_of_lt hcon)
          rcases le_total β w with h4 | h4
          · rw [min_eq_left h4] at h3
            exact absurd h3 (not_le.2 hαβ)
          · rw [min_eq_right h4] at h3
            exact h3
        have hα' : max α (max best s) = α := by
          rw [hmax, max_eq_left hsα]
        rw [hα']
        have hb' : max best s ≤ α := max_le hba hsα
        rw [ih (max best s) α β hαβ hb']
        rw [max_plain_loop_base ev sd b depth h ms (max best s),
          max_plain_loop_base ev sd b depth h ms (max best w),
          clamp_max_base hb', clamp_max_base (max_le hba hwα)]

/-- Knuth-Moore invariant for the pruned min loop. -/
theorem min_loop_km (ev : GoBoard → ℚ) (sd : ℕ) (b : GoBoard) (depth : ℕ)
    (h : depth < sd)
    (hch : ∀ (m : Pos) (α β : Score), α < β →
      max α (min β (max_value ev sd (play_move b m.1 m.2).2 (depth + 1) α β)) =
        max α (min β (max_plain ev sd (play_move b m.1 m.2).2 (depth + 1)))) :
    ∀ (L : List Pos) (best α β : Score), α < β → β ≤ best →
      max α (min β (min_loop ev sd b depth h L best α β)) =
        max α (min β (min_plain_loop ev sd b depth h L best)) := by
  intro L
  induction L with
  | nil =>
    intro best α β hαβ hbb
    simp only [min_loop, min_plain_loop]
  | cons m ms ih =>
    intro best α β hαβ hbb
    simp only [min_loop, min_plain_loop]
    set s := max_value ev sd (play_move b m.1 m.2).2 (depth + 1) α β with hs
    set w := max_plain ev sd (play_move b m.1 m.2).2 (depth + 1) with hw
    have hsw : max α (min β s) = max α (min β w) := hch m α β hαβ
    have hmin : min β (min best s) = min β s := by
      rw [← min_assoc, min_eq_left hbb]
    split_ifs with hbr
    · -- pruning: beta' = min β s ≤ α, hence s ≤ α and the move fails low
      rw [hmin] at hbr
      have hsα : s ≤ α := by
        rcases le_total β s with h1 | h1
        · rw [min_eq_left h1] at hbr
          exact absurd hbr (not_le.2 hαβ)
        · rw [min_eq_right h1] at hbr
          exact hbr
      have hbest : min best s = s :=
        min_eq_right (le_trans hsα (le_trans (le_of_lt hαβ) hbb))
      have hwα : w ≤ α := by
        have h2 : max α (min β w) = α := by
          rw [← hsw, min_eq_right (le_trans hsα (le_of_lt hαβ)),
            max_eq_left hsα]
        have h3 : min β w ≤ α := by
          by_contra hcon
          push_neg at hcon
          rw [max_eq_right (le_of_lt hcon)] at h2
          exact absurd h2.symm (ne_of_lt hcon)
        rcases le_total β w with h4 | h4
        · rw [min_eq_left h4] at h3
          exact absurd h3 (not_le.2 hαβ)
        · rw [min_eq_right h4] at h3
          exact h3
      have hplain : min_plain_loop ev sd b depth h ms (min best w) ≤ α := by
        rw [min_plain_loop_base]
        exact le_trans (le_trans (min_le_left _ _) (min_le_right best w)) hwα
      rw [hbest, min_eq_right (le_trans hsα (le_of_lt hαβ)), max_eq_left hsα,
        min_eq_right (le_trans hplain (le_of_lt hαβ)), max_eq_left hplain]
    · rw [hmin] at hbr
      have hlt : α < min β s := not_le.1 hbr
      rcases lt_or_le s β with hsβ | hβs
      · -- the move improves beta strictly: its value is exact
        have hαs : α < s := by
          rw [min_eq_right (le_of_lt hsβ)] at hlt
          exact hlt
        have hws : w = s := by
          have h2 : max α (min β w) = s := by
            rw [← hsw, min_eq_right (le_of_lt hsβ),
              max_eq_right (le_of_lt hαs)]
          rcases le_total β w with h4 | h4
          · rw [min_eq_left h4, max_eq_right (le_of_lt hαβ)] at h2
            exact absurd h2 (ne_of_gt hsβ)
          · rw [min_eq_right h4] at h2
            rcases le_total w α with h5 | h5
            · rw [max_eq_left h5] at h2
              exact absurd h2 (ne_of_lt hαs)
            · rw [max_eq_right h5] at h2
              exact h2
        have hbs : min best s = s :=
          min_eq_right (le_trans (le_of_lt hsβ) hbb)
        rw [hws, hbs, min_eq_right (le_of_lt hsβ)]
        have hIH := ih s α s hαs (le_refl s)
        have hr : min_loop ev sd b depth h ms s α s ≤ s :=
          min_loop_le ev sd b depth h ms s α s
        have hP : min_plain_loop ev sd b depth h ms s ≤ s := by
          rw [min_plain_loop_base]
          exact min_le_left _ _
        rw [min_eq_right hr, min_eq_right hP] at hIH
        rw [min_eq_right (le_trans hr (le_of_lt hsβ)),
          min_eq_right (le_trans hP (le_of_lt hsβ))]
        exact hIH
      · -- the move fails high: both sides stay clamped at β
        have hwβ : β ≤ w := by
          have h2 : max α (min β w) = β := by
            rw [← hsw, min_eq_left hβs, max_eq_right (le_of_lt hαβ)]
          rcases le_total w β with h3 | h3
          · rw [min_eq_right h3] at h2
            rcases le_total w α with h4 | h4
            · rw [max_eq_left h4] at h2
              exact absurd h2 (ne_of_lt hαβ)
            · rw [max_eq_right h4] at h2
              exact le_of_eq h2.symm
          · exact h3
        have hβ' : min β (min best s) = β := by
          rw [hmin, min_eq_left hβs]
        rw [hβ']
        have hb' : β ≤ min best s := le_min hbb hβs
        rw [ih (min best s) α β hαβ hb']
        rw [min_plain_loop_base ev sd b depth h ms (min best s),
          min_plain_loop_base ev sd b depth h ms (min best w),
          clamp_min_base hb', clamp_min_base (le_min hbb hwβ)]

/-- Knuth-Moore theorem for this implementation: within any window
`α < β`, the clamped alpha-beta value agrees with the clamped exhaustive
minimax value, for both players. -/
theorem km_spec (ev : GoBoard → ℚ) (sd : ℕ) :
    ∀ (k : ℕ) (b : GoBoard) (depth : ℕ), sd - depth ≤ k →
      ∀ (α β : Score), α < β →
        max α (min β (max_value ev sd b depth α β)) =
          max α (min β (max_plain ev sd b depth)) ∧
        max α (min β (min_value ev sd b depth α β)) =
          max α (min β (min_plain ev sd b depth)) := by
  intro k
  induction k with
  | zero =>
    intro b depth hk α β hαβ
    have hle : is_game_over b = true ∨ sd ≤ depth := Or.inr (by omega)
    constructor
    · simp only [max_value, max_plain]
      rw [dif_pos hle, dif_pos hle]
    · simp only [min_value, min_plain]
      rw [dif_pos hle, dif_pos hle]
  | succ k ih =>
    intro b depth hk α β hαβ
    by_cases hleaf : is_game_over b = true ∨ sd ≤ depth
    · constructor
      · simp only [max_value, max_plain]
        rw [dif_pos hleaf, dif_pos hleaf]
      · simp only [min_value, min_plain]
        rw [dif_pos hleaf, dif_pos hleaf]
    · have hd : depth < sd := lt_of_not_le fun hh => hleaf (Or.inr hh)
      have hk' : sd - (depth + 1) ≤ k := by omega
      constructor
      · simp only [max_value, max_plain]
        rw [dif_neg hleaf, dif_neg hleaf]
        by_cases hmv : get_valid_moves b = []
        · rw [if_pos hmv, if_pos hmv]
          exact (ih (play_move b (-1) (-1)).2 (depth + 1) hk' α β hαβ).2
        · rw [if_neg hmv, if_neg hmv]
          exact max_loop_km ev sd b depth _
            (fun m α' β' hab =>
              (ih (play_move b m.1 m.2).2 (depth + 1) hk' α' β' hab).2)
            (get_valid_moves b) ⊥ α β hαβ bot_le
      · simp only [min_value, min_plain]
        rw [dif_neg hleaf, dif_neg hleaf]
        by_cases hmv : get_valid_moves b = []
        · rw [if_pos hmv, if_pos hmv]
          exact (ih (play_move b (-1) (-1)).2 (depth + 1) hk' α β hαβ).1
        · rw [if_neg hmv, if_neg hmv]
          exact min_loop_km ev sd b depth _
            (fun m α' β' hab =>
              (ih (play_move b m.1 m.2).2 (depth + 1) hk' α' β' hab).1)
            (get_valid_moves b) ⊤ α β hαβ le_top
  
/-- With the full window `(-inf, inf)` the pruned search is exact. -/
theorem min_value_full_window (ev : GoBoard → ℚ) (sd : ℕ) (b : GoBoard)
    (depth : ℕ) :
    min_value ev sd b depth ⊥ ⊤ = min_plain ev sd b depth := by
  have h := (km_spec ev sd (sd - depth) b depth (le_refl _) ⊥ ⊤ bot_lt_top).2
  rw [min_eq_right le_top, min_eq_right le_top, max_eq_right bot_le,
    max_eq_right bot_le] at h
  exact h

theorem root_loop_eq (ev : GoBoard → ℚ) (sd : ℕ) (b : GoBoard) :
    ∀ (L : List Pos) (best : Score) (bm : Option Pos),
      root_loop_ab ev sd b L best bm = root_loop_plain ev sd b L best bm := by
  intro L
  induction L with
  | nil =>
    intro best bm
    rfl
  | cons m ms ih =>
    intro best bm
    simp only [root_loop_ab, root_loop_plain]
    rw [min_value_full_window]
    split_ifs
    · exact ih _ _
    · exact ih _ _

/-- C3: for every evaluator, search depth, agent color, fallback choice
function, board, and fixed root move order, the move chosen by the
alpha-beta search equals the move chosen by exhaustive minimax to the same
depth with the same order and the same first-strictly-greater tie-breaking:
pruning never changes the chosen move. -/
theorem c3_pruning_preserves_choice (ev : GoBoard → ℚ) (sd : ℕ) (color : ℕ)
    (choice : List Pos → Pos) (b : GoBoard) (order : List Pos) :
    get_move_ab ev sd color choice b order =
      get_move_plain ev sd color choice b order := by
  unfold get_move_ab get_move_plain
  rw [root_loop_eq]

/-!
## C9: termination of the mutually recursive search

The Python recursion is modelled once more with an explicit call-stack
budget (`fuel`), decremented at every `_max_value`/`_min_value` call and
returning `none` when exhausted; the theorem shows that any budget larger
than `search_depth - depth` suffices: the search always completes and
returns the value of the well-founded recursion above.
-/

mutual

/-- `_max_value` with an explicit call-stack budget. -/
def max_valueF (ev : GoBoard → ℚ) (sd : ℕ) (fuel : ℕ) (b : GoBoard)
    (depth : ℕ) (α β : Score) : Option Score :=
  match fuel with
  | 0 => none
  | fuel' + 1 =>
    if is_game_over b = true ∨ sd ≤ depth then some (val (ev b))
    else if get_valid_moves b = [] then
      min_valueF ev sd fuel' (play_move b (-1) (-1)).2 (depth + 1) α β
    else max_loopF ev sd fuel' b depth (get_valid_moves b) ⊥ α β
termination_by (fuel, 0, 0)

/-- The move loop of `_max_value` with an explicit budget. -/
def max_loopF (ev : GoBoard → ℚ) (sd : ℕ) (fuel : ℕ) (b : GoBoard)
    (depth : ℕ) (L : List Pos) (best α β : Score) : Option Score :=
  match L with
  | [] => some best
  | m :: ms =>
    match min_valueF ev sd fuel (play_move b m.1 m.2).2 (depth + 1) α β with
    | none => none
    | some s =>
      if β ≤ max α (max best s) then some (max best s)
      else max_loopF ev sd fuel b depth ms (max best s) (max α (max best s)) β
termination_by (fuel, 1, L.length)

/-- `_min_value` with an explicit call-stack budget. -/
def min_valueF (ev : GoBoard → ℚ) (sd : ℕ) (fuel : ℕ) (b : GoBoard)
    (depth : ℕ) (α β : Score) : Option Score :=
  match fuel with
  | 0 => none
  | fuel' + 1 =>
    if is_game_over b = true ∨ sd ≤ depth then some (val (ev b))
    else if get_valid_moves b = [] then
      max_valueF ev sd fuel' (play_move b (-1) (-1)).2 (depth + 1) α β
    else min_loopF ev sd fuel' b depth (get_valid_moves b) ⊤ α β
termination_by (fuel, 0, 0)

/-- The move loop of `_min_value` with an explicit budget. -/
def min_loopF (ev : GoBoard → ℚ) (sd : ℕ) (fuel : ℕ) (b : GoBoard)
    (depth : ℕ) (L : List Pos) (best α β : Score) : Option Score :=
  match L with
  | [] => some best
  | m :: ms =>
    match max_valueF ev sd fuel (play_move b m.1 m.2).2 (depth + 1) α β with
    | none => none
    | some s =>
      if min β (min best s) ≤ α then some (min best s)
      else min_loopF ev sd fuel b depth ms (min best s) α (min β (min best s))
termination_by (fuel, 1, L.length)

end

theorem max_loopF_spec (ev : GoBoard → ℚ) (sd : ℕ) (fuel : ℕ) (b : GoBoard)
    (depth : ℕ) (hd : depth < sd)
    (hch : ∀ (m : Pos) (α β : Score),
      min_valueF ev sd fuel (play_move b m.1 m.2).2 (depth + 1) α β =
        some (min_value ev sd (play_move b m.1 m.2).2 (depth + 1) α β)) :
    ∀ (L : List Pos) (best α β : Score),
      max_loopF ev sd fuel b depth L best α β =
        some (max_loop ev sd b depth hd L best α β) := by
  intro L
  induction L with
  | nil =>
    intro best α β
    simp only [max_loopF, max_loop]
  | cons m ms ih =>
    intro best α β
    simp only [max_loopF, max_loop]
    rw [hch m α β]
    split
    · next heq => simp at heq
    · next s heq =>
        injection heq with heq2
        subst heq2
        split_ifs
        · rfl
        · exact ih _ _ _

theorem min_loopF_spec (ev : GoBoard → ℚ) (sd : ℕ) (fuel : ℕ) (b : GoBoard)
    (depth : ℕ) (hd : depth < sd)
    (hch : ∀ (m : Pos) (α β : Score),
      max_valueF ev sd fuel (play_move b m.1 m.2).2 (depth + 1) α β =
        some (max_value ev sd (play_move b m.1 m.2).2 (depth + 1) α β)) :
    ∀ (L : List Pos) (best α β : Score),
      min_loopF ev sd fuel b depth L best α β =
        some (min_loop ev sd b depth hd L best α β) := by
  intro L
  induction L with
  | nil =>
    intro best α β
    simp only [min_loopF, min_loop]
  | cons m ms ih =>
    intro best α β
    simp only [min_loopF, min_loop]
    rw [hch m α β]
    split
    · next heq => simp at heq
    · next s heq =>
        injection heq with heq2
        subst heq2
        split_ifs
        · rfl
        · exact ih _ _ _

theorem fuel_spec (ev : GoBoard → ℚ) (sd : ℕ) :
    ∀ (fuel : ℕ) (b : GoBoard) (depth : ℕ), sd - depth < fuel →
      ∀ (α β : Score),
        max_valueF ev sd fuel b depth α β =
          some (max_value ev sd b depth α β) ∧
        min_valueF ev sd fuel b depth α β =
          some (min_value ev sd b depth α β) := by
  intro fuel
  induction fuel with
  | zero =>
    intro b depth hk
    exact absurd hk (Nat.not_lt_zero _)
  | succ fuel ih =>
    intro b depth hk α β
    by_cases hleaf : is_game_over b = true ∨ sd ≤ depth
    · constructor
      · simp only [max_valueF]
        rw [if_pos hleaf,
          show max_value ev sd b depth α β = val (ev b) from by
            simp only [max_value]; rw [dif_pos hleaf]]
      · simp only [min_valueF]
        rw [if_pos hleaf,
          show min_value ev sd b depth α β = val (ev b) from by
            simp only [min_value]; rw [dif_pos hleaf]]
    · have hd : depth < sd := lt_of_not_le fun hh => hleaf (Or.inr hh)
      have hk' : sd - (depth + 1) < fuel := by omega
      constructor
      · simp only [max_valueF]
        rw [if_neg hleaf]
        by_cases hmv : get_valid_moves b = []
        · rw [if_pos hmv,
            show max_value ev sd b depth α β =
              min_value ev sd (play_move b (-1) (-1)).2 (depth + 1) α β from by
                simp only [max_value]; rw [dif_neg hleaf, if_pos hmv]]
          exact (ih (play_move b (-1) (-1)).2 (depth + 1) hk' α β).2
        · rw [if_neg hmv,
            show max_value ev sd b depth α β =
              max_loop ev sd b depth hd (get_valid_moves b) ⊥ α β from by
                simp only [max_value]; rw [dif_neg hleaf, if_neg hmv]]
          exact max_loopF_spec ev sd fuel b depth hd
            (fun m α' β' => (ih (play_move b m.1 m.2).2 (depth + 1) hk' α' β').2)
            (get_valid_moves b) ⊥ α β
      · simp only [min_valueF]
        rw [if_neg hleaf]
        by_cases hmv : get_valid_moves b = []
        · rw [if_pos hmv,
            show min_value ev sd b depth α β =
              max_value ev sd (play_move b (-1) (-1)).2 (depth + 1) α β from by
                simp only [min_value]; rw [dif_neg hleaf, if_pos hmv]]
          exact (ih (play_move b (-1) (-1)).2 (depth + 1) hk' α β).1
        · rw [if_neg hmv,
            show min_value ev sd b depth α β =
              min_loop ev sd b depth hd (get_valid_moves b) ⊤ α β from by
                simp only [min_value]; rw [dif_neg hleaf, if_neg hmv]]
          exact min_loopF_spec ev sd fuel b depth hd
            (fun m α' β' => (ih (play_move b m.1 m.2).2 (depth + 1) hk' α' β').1)
            (get_valid_moves b) ⊤ α β

/-- C9: for every board, every finite search depth, and every starting
depth, the mutually recursive search functions terminate: with any
call-stack budget exceeding `search_depth - depth` (every recursive call,
including the forced-pass branch, is made at `depth + 1`), both searches
complete and return the value of the well-founded recursion. -/
theorem c9_search_terminates (ev : GoBoard → ℚ) (sd : ℕ) (b : GoBoard)
    (depth : ℕ) (α β : Score) (fuel : ℕ) (hfuel : sd - depth < fuel) :
    max_valueF ev sd fuel b depth α β = some (max_value ev sd b depth α β) ∧
      min_valueF ev sd fuel b depth α β =
        some (min_value ev sd b depth α β) :=
  fuel_spec ev sd fuel b depth hfuel α β

/-- Witness for C9 at a concrete input. -/
theorem c9_witness :
    (1 : ℕ) - 0 < 2 ∧
      (max_valueF (fun _ => 0) 1 2 (init_board 2) 0 ⊥ ⊤ =
          some (max_value (fun _ => 0) 1 (init_board 2) 0 ⊥ ⊤) ∧
        min_valueF (fun _ => 0) 1 2 (init_board 2) 0 ⊥ ⊤ =
          some (min_value (fun _ => 0) 1 (init_board 2) 0 ⊥ ⊤)) :=
  ⟨by decide,
    c9_search_terminates (fun _ => 0) 1 (init_board 2) 0 ⊥ ⊤ 2 (by decide)⟩
